import Mathlib

/-!
Verification of the virtual-content core (`packages/core/src/virtual-content.ts`).

The TypeScript module is a stateless codec: four encode/decode pairs over
filename strings plus a dispatcher that renders module source text for the
first decoder that matches.  Strings are embedded as Lean `String`
(`List Char` data); all string operations used by the source are defined
below on the character-list level so their behaviour is fully explicit.

JavaScript specifics that the embedding models faithfully:
  * `RegExp` semantics for the two patterns in the source
    (`pairComponentPattern`, `fastbootSwitchPattern`): `.` does not match
    line terminators (LF, CR, U+2028, U+2029), negated classes such as
    `[^/]` do match them, matches are leftmost with greedy backtracking,
    and `$` anchors at the very end of the string.
  * `encodeURIComponent` / `decodeURIComponent`: percent-encoding of UTF-8
    bytes; `decodeURIComponent` throws `URIError` on a malformed percent
    sequence, which the embedding represents as `Option`/`Except` failure.
  * `Array.prototype.sort` (ES2019+) with a consistent comparator: modelled
    by a stable insertion sort using the source's `orderAddons` comparator.
  * Node `path` on posix: `dirname`, `basename`, `resolve`, `join`,
    `posix.join`, `sep = '/'`.
-/

namespace VirtualContent

/-! ## Character-list utilities -/

/-- Split a character list on a separator character.  Mirrors
`String.split` / JS `String.prototype.split` with a single-character
separator: the result is never empty and separators are not kept. -/
def splitOnChar (c : Char) : List Char → List (List Char)
  | [] => [[]]
  | x :: xs =>
    match splitOnChar c xs with
    | [] => [[]]
    | s :: ss => if x = c then [] :: s :: ss else (x :: s) :: ss

/-- Join character-list pieces with a separator character (JS
`Array.prototype.join` with a one-character separator). -/
def joinChar (c : Char) : List (List Char) → List Char
  | [] => []
  | [s] => s
  | s :: ss => s ++ c :: joinChar c ss

/-! ## JavaScript regex character classes -/

/-- The four line terminators that the JS regex `.` does not match. -/
def isLineTerm (c : Char) : Bool :=
  c = '\n' ∨ c = '\r' ∨ c.toNat = 8232 ∨ c.toNat = 8233

def noLineTerm (l : List Char) : Bool := l.all (fun c => !isLineTerm c)

/-- Keep the characters after the last line terminator (what a greedy `.+`
starting at the leftmost viable position can cover). -/
def afterLastLineTerm : List Char → List Char
  | [] => []
  | c :: rest =>
    if (afterLastLineTerm rest).length = rest.length then
      if isLineTerm c then afterLastLineTerm rest else c :: afterLastLineTerm rest
    else afterLastLineTerm rest

/-! ## String primitives (JS / Node built-ins), on `String.data` -/

/-- JS `String.prototype.startsWith`. -/
def jsStartsWith (s pre : String) : Bool := pre.data.isPrefixOf s.data

/-- JS `String.prototype.endsWith`. -/
def jsEndsWith (s suf : String) : Bool := decide (suf.data <:+ s.data)

/-- JS `s.slice(n)` for a non-negative index (ASCII prefixes only, so
UTF-16 indices coincide with character counts). -/
def jsSliceFrom (s : String) (n : Nat) : String := String.mk (s.data.drop n)

/-- JS `s.slice(0, -n)`. -/
def jsDropRight (s : String) (n : Nat) : String :=
  String.mk (s.data.take (s.data.length - n))

/-! ## Node `path` primitives (posix flavour) -/

/-- Node `path.dirname`: everything before the last `/`; `"."` when there
is no slash; `"/"` when the slashes are all leading. -/
def dirnameStr (s : String) : String :=
  match splitOnChar '/' s.data with
  | [] => "."
  | [_] => "."
  | parts =>
    let init := parts.dropLast
    if init.all (· = []) then "/" else String.mk (joinChar '/' init)

/-- Node `path.basename`: everything after the last `/`. -/
def basenameStr (s : String) : String :=
  match (splitOnChar '/' s.data).getLast? with
  | some seg => String.mk seg
  | none => s

/-- Nonempty `/`-separated segments of a path string. -/
def segsOf (s : String) : List (List Char) :=
  (splitOnChar '/' s.data).filter (· ≠ [])

/-- Normalise the segments of an *absolute* path: drop empty and `.`
segments, let `..` pop (excess `..` disappears at the root, as in Node
`path.resolve`). -/
def normAbsSegs (acc : List (List Char)) : List (List Char) → List (List Char)
  | [] => acc
  | s :: rest =>
    if s = [] ∨ s = ['.'] then normAbsSegs acc rest
    else if s = ['.', '.'] then normAbsSegs acc.dropLast rest
    else normAbsSegs (acc ++ [s]) rest

/-- Node `path.resolve(dir, p)` for an absolute `dir` (the only way the
source calls it): absolute `p` wins, otherwise `p` is joined onto `dir`,
and the result is normalised. -/
def resolvePath (dir p : String) : String :=
  if p.data.head? = some '/' then
    String.mk ('/' :: joinChar '/' (normAbsSegs [] (segsOf p)))
  else
    String.mk ('/' :: joinChar '/' (normAbsSegs [] (segsOf dir ++ segsOf p)))

/-- Normalise the segments of a *relative* path: like `normAbsSegs` but
leading `..` segments are preserved (Node `path.join` keeps them). -/
def normRelSegs (acc : List (List Char)) : List (List Char) → List (List Char)
  | [] => acc
  | s :: rest =>
    if s = [] ∨ s = ['.'] then normRelSegs acc rest
    else if s = ['.', '.'] then
      if acc = [] ∨ acc.getLast? = some ['.', '.'] then normRelSegs (acc ++ [s]) rest
      else normRelSegs acc.dropLast rest
    else normRelSegs (acc ++ [s]) rest

/-- Node `path.join(a, b)` (posix; `path.posix.join` is the same function
in the posix model used here). -/
def pathJoin (a b : String) : String :=
  match normRelSegs [] ((splitOnChar '/' (a.data ++ '/' :: b.data)).filter (· ≠ [])) with
  | [] => "."
  | segs => String.mk (joinChar '/' segs)

/-- Length of the common prefix of two segment lists. -/
def commonPrefixLen : List (List Char) → List (List Char) → Nat
  | a :: as, b :: bs => if a = b then commonPrefixLen as bs + 1 else 0
  | _, _ => 0

/-- Modelled from the spec: the external Path Relativizer primitive
(`explicitRelative` from the shared-internals package, which is not part
of the sources under verification).  Per the spec it "computes an explicit
relative path string between two directories", "always prefixed so it is
unambiguously relative, e.g. starts with `./` or `../`".  It goes up from
`fromDir` to the deepest directory shared with the target's parent and
then back down, ending in the target's base name (`§4.1` derives
`debugName` from "the hbs module's base name"). -/
def explicitRelative (fromDir toFile : String) : String :=
  let f := segsOf fromDir
  let t := segsOf toFile
  let td := t.dropLast
  let base := (t.getLast?).getD []
  let c := commonPrefixLen f td
  if f.length - c = 0 then
    String.mk (joinChar '/' (['.'] :: (td.drop c ++ [base])))
  else
    String.mk (joinChar '/' (List.replicate (f.length - c) ['.', '.'] ++ (td.drop c ++ [base])))

/-! ## Validity of paths

The round-trip claims quantify over "valid" module paths (spec §8).  A
valid absolute path is `/`-rooted, has at least one segment, and every
segment is a nonempty ASCII chunk free of `/`, line terminators and the
special names `.` and `..`. -/

def goodSeg (s : List Char) : Bool :=
  s ≠ [] ∧ s ≠ ['.'] ∧ s ≠ ['.', '.'] ∧
    s.all (fun c => c ≠ '/' ∧ !isLineTerm c ∧ c.toNat < 128)

def validAbsPath (p : String) : Bool :=
  match p.data with
  | '/' :: rest => (splitOnChar '/' rest).all goodSeg
  | _ => false

/-! ## `encodeURIComponent` / `decodeURIComponent`

JS `encodeURIComponent` leaves `A-Z a-z 0-9 - _ . ! ~ * ' ( )` as is and
percent-encodes the UTF-8 bytes of every other character with uppercase
hex digits.  `decodeURIComponent` reverses this and throws `URIError` on a
malformed percent sequence; the embedding returns `none` in that case. -/

def isUnreservedURI (c : Char) : Bool :=
  (('A' ≤ c ∧ c ≤ 'Z') ∨ ('a' ≤ c ∧ c ≤ 'z') ∨ ('0' ≤ c ∧ c ≤ '9')) ∨
    c = '-' ∨ c = '_' ∨ c = '.' ∨ c = '!' ∨ c = '~' ∨ c = '*' ∨
    c = '(' ∨ c = ')' ∨ c.toNat = 39

def hexDigitChar (n : Nat) : Char :=
  if n < 10 then Char.ofNat (48 + n) else Char.ofNat (55 + n)

def hexVal (c : Char) : Option Nat :=
  if '0' ≤ c ∧ c ≤ '9' then some (c.toNat - 48)
  else if 'A' ≤ c ∧ c ≤ 'F' then some (c.toNat - 55)
  else if 'a' ≤ c ∧ c ≤ 'f' then some (c.toNat - 87)
  else none

/-- UTF-8 bytes of a code point. -/
def utf8Bytes (n : Nat) : List Nat :=
  if n < 128 then [n]
  else if n < 2048 then [192 + n / 64, 128 + n % 64]
  else if n < 65536 then [224 + n / 4096, 128 + (n / 64) % 64, 128 + n % 64]
  else [240 + n / 262144, 128 + (n / 4096) % 64, 128 + (n / 64) % 64, 128 + n % 64]

def pctByte (b : Nat) : List Char := ['%', hexDigitChar (b / 16), hexDigitChar (b % 16)]

def pctBytes : List Nat → List Char
  | [] => []
  | b :: bs => pctByte b ++ pctBytes bs

def encList : List Char → List Char
  | [] => []
  | c :: cs => (if isUnreservedURI c then [c] else pctBytes (utf8Bytes c.toNat)) ++ encList cs

def encodeURIComponent (s : String) : String := String.mk (encList s.data)

/-- First decoding pass: turn each `%XY` into a byte, keep other
characters; fail on an incomplete or non-hex percent sequence. -/
def pctTokens : List Char → Option (List (Char ⊕ Nat))
  | [] => some []
  | c :: rest =>
    if c = '%' then
      match rest with
      | h1 :: h2 :: rest2 =>
        match hexVal h1, hexVal h2 with
        | some a, some b => (pctTokens rest2).map (Sum.inr (16 * a + b) :: ·)
        | _, _ => none
      | _ => none
    else (pctTokens rest).map (Sum.inl c :: ·)

def isContByte (b : Nat) : Bool := 128 ≤ b ∧ b < 192

/-- Read the continuation bytes of a multi-byte UTF-8 sequence whose
leading byte is `b ≥ 128`, producing the decoded character and the
remaining tokens. -/
def readSeq (b : Nat) (rest : List (Char ⊕ Nat)) : Option (Char × List (Char ⊕ Nat)) :=
  if b < 192 then none
  else if b < 224 then
    match rest with
    | Sum.inr b2 :: rest2 =>
      if isContByte b2 then some (Char.ofNat ((b - 192) * 64 + (b2 - 128)), rest2) else none
    | _ => none
  else if b < 240 then
    match rest with
    | Sum.inr b2 :: Sum.inr b3 :: rest3 =>
      if isContByte b2 ∧ isContByte b3 then
        some (Char.ofNat ((b - 224) * 4096 + (b2 - 128) * 64 + (b3 - 128)), rest3)
      else none
    | _ => none
  else if b < 248 then
    match rest with
    | Sum.inr b2 :: Sum.inr b3 :: Sum.inr b4 :: rest4 =>
      if isContByte b2 ∧ isContByte b3 ∧ isContByte b4 then
        some (Char.ofNat ((b - 240) * 262144 + (b2 - 128) * 4096 +
          (b3 - 128) * 64 + (b4 - 128)), rest4)
      else none
    | _ => none
  else none

/-- Second decoding pass: reassemble UTF-8 byte sequences into characters;
fail on a stray continuation byte or a truncated sequence.  Fuelled so
that the kernel can evaluate it; one unit of fuel per leading token is
always enough. -/
def utf8AsmF : Nat → List (Char ⊕ Nat) → Option (List Char)
  | _, [] => some []
  | 0, _ :: _ => none
  | fuel + 1, Sum.inl c :: rest => (utf8AsmF fuel rest).map (c :: ·)
  | fuel + 1, Sum.inr b :: rest =>
    if b < 128 then (utf8AsmF fuel rest).map (Char.ofNat b :: ·)
    else
      match readSeq b rest with
      | some (c, rest2) => (utf8AsmF fuel rest2).map (c :: ·)
      | none => none

def utf8Asm (l : List (Char ⊕ Nat)) : Option (List Char) := utf8AsmF l.length l

def decodeURIComponent (s : String) : Option String :=
  ((pctTokens s.data).bind utf8Asm).map String.mk

/-! ## The virtual-content module (translated from
`packages/core/src/virtual-content.ts`)

The handlebars templates are opaque text producers; they are rendered
here as plain string concatenation following the template bodies.  The
claims never inspect the rendered text, only which render is chosen and
with which parameters. -/

/-- Minimal model of the `js-string-escape` helper used inside the
templates. -/
def escChar (c : Char) : List Char :=
  if c = '"' then ['\\', '"']
  else if c = Char.ofNat 39 then ['\\', Char.ofNat 39]
  else if c = '\\' then ['\\', '\\']
  else if c = '\n' then ['\\', 'n']
  else if c = '\r' then ['\\', 'r']
  else [c]

def jsStringEscape (s : String) : String :=
  String.mk (s.data.foldr (fun c acc => escChar c ++ acc) [])

/-- `const externalPrefix = '/@embroider/external/'`. -/
def externalPrefixStr : String := "/@embroider/external/"

/-- The `externalShim` template. -/
def externalShim (moduleName : String) : String :=
  (if moduleName = "require" then "const m = window.requirejs;\n"
   else "const m = window.require(\"" ++ jsStringEscape moduleName ++ "\");\n") ++
  "if (m.default && !m.__esModule) \x7b\n  m.__esModule = true;\n\x7d\nmodule.exports = m;\n"

/-- `virtualExternalModule`. -/
def virtualExternalModule (specifier : String) : String :=
  externalPrefixStr ++ specifier

/-- `const pairComponentMarker = '/embroider-pair-component'`. -/
def pairComponentMarker : String := "/embroider-pair-component"

/-- `virtualPairComponent(hbsModule, jsModule)`.  The `''`-vs-`null`
distinction of the source is carried by `Option`. -/
def virtualPairComponent (hbsModule : String) (jsModule : Option String) : String :=
  let relativeJSModule := match jsModule with
    | some js => explicitRelative (hbsModule ++ "/j/") js
    | none => ""
  hbsModule ++ "/" ++ encodeURIComponent relativeJSModule ++ pairComponentMarker

structure PairInfo where
  relativeHBSModule : String
  relativeJSModule : Option String
  debugName : String
deriving DecidableEq, Repr

/-- `basename(relativeHBSModule).replace(/\.(js|hbs)$/, '')`. -/
def stripTemplateExt (s : String) : String :=
  if jsEndsWith s ".hbs" then jsDropRight s 4
  else if jsEndsWith s ".js" then jsDropRight s 3
  else s

/-- The match of `pairComponentPattern =
`/^(?<hbsModule>.*)\/(?<jsModule>[^\/]*)\/embroider-pair-component$/`:
the filename must end with the marker, what precedes splits at its last
slash, the `hbsModule` group (matched by `.`) must be free of line
terminators, and the `jsModule` group is slash-free by construction. -/
def pairSplit (filename : String) : Option (String × String) :=
  let D := filename.data
  if decide (pairComponentMarker.data <:+ D) then
    let parts := splitOnChar '/' (D.take (D.length - 25))
    if parts.length ≥ 2 then
      let hbsM := joinChar '/' parts.dropLast
      if noLineTerm hbsM then
        some (String.mk hbsM, String.mk ((parts.getLast?).getD []))
      else none
    else none
  else none

/-- `decodeVirtualPairComponent`.  `Except Unit` models the `URIError`
that `decodeURIComponent` throws on a malformed percent segment. -/
def decodeVirtualPairComponent (filename : String) :
    Except Unit (Option PairInfo) :=
  match pairSplit filename with
  | none => .ok none
  | some (hbsModule, jsModule) =>
    let relativeHBSModule := explicitRelative (dirnameStr filename) hbsModule
    match decodeURIComponent jsModule with
    | none => .error ()
    | some d =>
      .ok (some { relativeHBSModule := relativeHBSModule
                  relativeJSModule := if d = "" then none else some d
                  debugName := stripTemplateExt (basenameStr relativeHBSModule) })

/-- The `pairedComponentShim` template. -/
def pairedComponentShim (p : PairInfo) : String :=
  "import \x7b setComponentTemplate \x7d from \"@ember/component\";\n" ++
  "import template from \"" ++ jsStringEscape p.relativeHBSModule ++ "\";\n" ++
  (match p.relativeJSModule with
   | some js =>
     "import component from \"" ++ jsStringEscape js ++ "\";\n" ++
     "export default setComponentTemplate(template, component);\n"
   | none =>
     "import templateOnlyComponent from \"@ember/component/template-only\";\n" ++
     "export default setComponentTemplate(template, templateOnlyComponent(undefined, \"" ++
       jsStringEscape p.debugName ++ "\"));\n")

/-- `const fastbootSwitchSuffix = '/embroider_fastboot_switch'`. -/
def fastbootSwitchSuffix : String := "/embroider_fastboot_switch"

/-- `fastbootSwitch(specifier, fromFile, names)`.  The JS `Set` is
modelled as its insertion-ordered element list. -/
def fastbootSwitch (specifier fromFile : String) (names : List String) : String :=
  let filename := resolvePath (dirnameStr fromFile) specifier ++ fastbootSwitchSuffix
  if names.length > 0 then
    filename ++ "?names=" ++ String.mk (joinChar ',' (names.map String.data))
  else filename

structure FastbootInfo where
  names : List String
  hasDefaultExport : Bool
  filename : String
deriving DecidableEq, Repr

/-- Marker occurrence: `"/embroider_fastboot_switch"` starts at index `i`. -/
def fbMarkerAt (D : List Char) (i : Nat) : Bool :=
  fastbootSwitchSuffix.data.isPrefixOf (D.drop i)

/-- Viable tail after a marker occurrence for `fastbootSwitchPattern =
`/(?<original>.+)\/embroider_fastboot_switch(?:\?names=(?<names>.+))?$/`:
either the string ends right there, or `?names=` followed by a nonempty
run of non-line-terminator characters reaches the end. -/
def fbViableTail (t : List Char) : Bool :=
  t = [] ∨ (("?names=".data).isPrefixOf t ∧ t.drop 7 ≠ [] ∧ noLineTerm (t.drop 7))

def fbViableAt (D : List Char) (i : Nat) : Bool :=
  fbMarkerAt D i ∧ fbViableTail (D.drop (i + 26))

/-- Largest index satisfying `p`, at most `n`. -/
def searchDown (p : Nat → Bool) : Nat → Option Nat
  | 0 => if p 0 then some 0 else none
  | n + 1 => if p (n + 1) then some (n + 1) else searchDown p n

/-- `decodeFastbootSwitch`.  The regex engine scans for the leftmost
match start; greediness of `original` (`.+`) then selects the *last*
viable marker occurrence, and the captured `original` is the
line-terminator-free run immediately before it (see the pattern notes on
`fbViableTail`); the match fails if that run is empty. -/
def decodeFastbootSwitch (filename : String) : Option FastbootInfo :=
  let D := filename.data
  match searchDown (fbViableAt D) D.length with
  | none => none
  | some i =>
    let originalChars := afterLastLineTerm (D.take i)
    if originalChars = [] then none
    else
      let t := D.drop (i + 26)
      let namesList :=
        if t = [] then [] else (splitOnChar ',' (t.drop 7)).map String.mk
      some { names := namesList.filter (· ≠ "default")
             hasDefaultExport := namesList.contains "default"
             filename := String.mk originalChars }

/-- The `fastbootSwitchTemplate` template. -/
def fastbootSwitchTemplate (fb : FastbootInfo) : String :=
  "import \x7b macroCondition, getGlobalConfig, importSync \x7d from \"@embroider/macros\";\n" ++
  "let mod;\nif (macroCondition(getGlobalConfig().fastboot?.isRunning))\x7b\n" ++
  "  mod = importSync(\"./fastboot\");\n\x7d else \x7b\n  mod = importSync(\"./browser\");\n\x7d\n" ++
  (if fb.hasDefaultExport then "export default mod.default;\n" else "") ++
  String.join (fb.names.map (fun n => "export const " ++ n ++ " = mod." ++ n ++ ";\n"))

/-- The two kinds of implicit-modules virtual files
(`'implicit-modules' | 'implicit-test-modules'`). -/
inductive ImplicitType where
  | implicitModules
  | implicitTestModules
deriving DecidableEq, Repr

def typeName : ImplicitType → String
  | .implicitModules => "implicit-modules"
  | .implicitTestModules => "implicit-test-modules"

structure ImplicitInfo where
  type : ImplicitType
  fromFile : String
deriving DecidableEq, Repr

/-- `decodeImplicitModules`. -/
def decodeImplicitModules (filename : String) : Option ImplicitInfo :=
  if jsEndsWith filename "/#embroider-implicit-modules" then
    some { type := .implicitModules, fromFile := jsDropRight filename 28 }
  else if jsEndsWith filename "/#embroider-implicit-test-modules" then
    some { type := .implicitTestModules, fromFile := jsDropRight filename 33 }
  else none

/-! ### The package-graph collaborator (external interface, spec §6) -/

inductive DepCategory where
  | dependencies
  | devDependencies
  | peerDependencies
deriving DecidableEq, Repr

/-- The metadata fields of `AddonPackage['meta']` read by this module.
Absent fields are `none`. -/
structure PackageMeta where
  orderIndex : Option Int := none
  implicitMods : Option (List String) := none
  implicitTestMods : Option (List String) := none
  renamedPackages : Option (List (String × String)) := none
  renamedMods : Option (List (String × String)) := none

/-- A package as seen through the resolver's package graph: name, the
`isV2Ember` / `isV2Addon` / `isEngine` classification predicates, `meta`,
`categorizeDependency`, and the dependency list. -/
inductive Package where
  | mk : String → Bool → Bool → Bool → PackageMeta → (String → DepCategory) →
      List Package → Package

def Package.name : Package → String
  | .mk n _ _ _ _ _ _ => n

def Package.isV2Ember : Package → Bool
  | .mk _ b _ _ _ _ _ => b

def Package.isV2Addon : Package → Bool
  | .mk _ _ b _ _ _ _ => b

def Package.isEngine : Package → Bool
  | .mk _ _ _ b _ _ _ => b

/-- `Package.meta` (named `pMeta` here). -/
def Package.pMeta : Package → PackageMeta
  | .mk _ _ _ _ m _ _ => m

def Package.categorizeDependency : Package → String → DepCategory
  | .mk _ _ _ _ _ f _ => f

def Package.dependencies : Package → List Package
  | .mk _ _ _ _ _ _ d => d

/-- Replace the dependency list of a package (used only to state the
peer-exclusion property). -/
def Package.withDependencies : Package → List Package → Package
  | .mk n e a g m f _, d => .mk n e a g m f d

structure Resolver where
  resolvableExtensions : List String
  ownerOfFile : String → Option Package

/-- `orderAddons(depA, depB)`: the comparator passed to `sort`. -/
def orderAddons (depA depB : Package) : Int :=
  (if depA.isV2Addon then depA.pMeta.orderIndex.getD 0 else 0) -
    (if depB.isV2Addon then depB.pMeta.orderIndex.getD 0 else 0)

/-- The effective sort key of `orderAddons` (`order-index`, defaulting to
`0` when absent or when the dependency is not a v2 addon). -/
def orderKey (d : Package) : Int :=
  if d.isV2Addon then d.pMeta.orderIndex.getD 0 else 0

/-- Stable insertion used to model ES2019 `Array.prototype.sort` (which
is specified to be stable) under the `orderAddons` comparator. -/
def sortInsert (x : Package) : List Package → List Package
  | [] => [x]
  | y :: ys => if orderAddons x y ≤ 0 then x :: y :: ys else y :: sortInsert x ys

/-- `pkg.dependencies.sort(orderAddons)`. -/
def sortByOrder : List Package → List Package
  | [] => []
  | x :: xs => sortInsert x (sortByOrder xs)

/-- Modelled from the spec: the external resolvable-extension matcher
(`extensionsPattern` from shared-internals, not among the sources under
verification): a matcher "usable to strip known source-file extensions
from a module path"; it strips one matching extension from the end (the
longest match, as the leftmost-position regex alternative). -/
def stripResolvableExt (exts : List String) (s : String) : String :=
  match (exts.filter (fun e => jsEndsWith s e)).foldl
      (fun acc e =>
        match acc with
        | none => some e
        | some b => if e.data.length > b.data.length then some e else some b)
      none with
  | some e => jsDropRight s e.data.length
  | none => s

/-- `runtime.split('\\').join('/')`. -/
def backslashToSlash (s : String) : String :=
  String.mk (joinChar '/' (splitOnChar '\\' s.data))

/-- `runtime.split(sep).join('/')` with posix `sep = '/'`. -/
def sepToSlash (s : String) : String :=
  String.mk (joinChar '/' (splitOnChar '/' s.data))

/-- The `renamed-packages` walk: `Object.entries(renamedMeta).forEach(...)`,
last matching entry wins. -/
def renamedPackageName (entries : List (String × String)) (depName orig : String) : String :=
  entries.foldl (fun acc kv => if kv.2 = depName then kv.1 else acc) orig

/-- `inverseRenamedModules(meta, extensions)`. -/
def inverseRenamedModules (m : PackageMeta) (exts : List String) :
    Option (List (String × String)) :=
  m.renamedMods.map (fun entries =>
    entries.map (fun kv => (stripResolvableExt exts kv.2, stripResolvableExt exts kv.1)))

/-- JS object lookup on an entry list (later entries overwrite earlier). -/
def objLookup (entries : List (String × String)) (k : String) : Option String :=
  (entries.reverse.find? (fun kv => kv.1 == k)).map (·.2)

def metaImplicit (d : Package) : ImplicitType → Option (List String)
  | .implicitModules => d.pMeta.implicitMods
  | .implicitTestModules => d.pMeta.implicitTestMods

structure LazyEntry where
  runtime : String
  buildtime : String
deriving DecidableEq, Repr

/-- The body of the `for (let name of implicitModules)` loop: one lazy
manifest entry. -/
def lazyEntryFor (dep : Package) (exts : List String) (name : String) : LazyEntry :=
  let packageName := match dep.pMeta.renamedPackages with
    | some renamedMeta => renamedPackageName renamedMeta dep.name dep.name
    | none => dep.name
  let runtime0 := stripResolvableExt exts (pathJoin packageName name)
  let runtimeRenameLookup := backslashToSlash runtime0
  let runtime1 := match inverseRenamedModules dep.pMeta exts with
    | some renamedModules =>
      match objLookup renamedModules runtimeRenameLookup with
      | some v => if v ≠ "" then v else runtime0
      | none => runtime0
    | none => runtime0
  { runtime := sepToSlash runtime1, buildtime := pathJoin packageName name }

/-- One iteration of the dependency loop in `renderImplicitModules`. -/
def aggStep (pkg : Package) (ty : ImplicitType) (exts : List String)
    (acc : List LazyEntry × List String) (dep : Package) :
    List LazyEntry × List String :=
  if !dep.isV2Addon then acc
  else if pkg.categorizeDependency dep.name == DepCategory.peerDependencies then acc
  else
    let acc1 := match metaImplicit dep ty with
      | some implicitModules =>
        (acc.1 ++ implicitModules.map (lazyEntryFor dep exts), acc.2)
      | none => acc
    if !dep.isEngine then
      (acc1.1, acc1.2 ++ [pathJoin dep.name ("#embroider-" ++ typeName ty)])
    else acc1

/-- The two manifests (`lazyModules`, `eagerModules`) built by
`renderImplicitModules` for an owning package. -/
def implicitManifests (pkg : Package) (ty : ImplicitType) (exts : List String) :
    List LazyEntry × List String :=
  (sortByOrder pkg.dependencies).foldl (aggStep pkg ty exts) ([], [])

/-- The `implicitModulesTemplate` template. -/
def implicitModulesTemplate (manifests : List LazyEntry × List String) : String :=
  "import \x7b importSync as i \x7d from \"@embroider/macros\";\nlet d = window.define;\n" ++
  String.join (manifests.1.map (fun m =>
    "d(\"" ++ jsStringEscape m.runtime ++ "\", function()\x7b return i(\"" ++
      jsStringEscape m.buildtime ++ "\");\x7d);\n")) ++
  String.join (manifests.2.map (fun m => "import \"" ++ jsStringEscape m ++ "\";\n"))

/-- The errors `virtualContent` can signal.  `unrecognized` is the
`"not an @embroider/core virtual file"` throw, `invalidPackage` the
`"bug: saw special implicit modules import in non-ember package"` throw,
and `uriError` the `URIError` escaping from `decodeURIComponent`. -/
inductive VCError where
  | unrecognized (filename : String)
  | invalidPackage (fromFile : String)
  | uriError
deriving DecidableEq, Repr

/-- `renderImplicitModules(im, resolver)`. -/
def renderImplicitModules (im : ImplicitInfo) (resolver : Resolver) :
    Except VCError String :=
  match resolver.ownerOfFile im.fromFile with
  | some pkg =>
    if pkg.isV2Ember then
      .ok (implicitModulesTemplate
        (implicitManifests pkg im.type resolver.resolvableExtensions))
    else .error (.invalidPackage im.fromFile)
  | none => .error (.invalidPackage im.fromFile)

/-- `virtualContent(filename, resolver)`: the dispatcher. -/
def virtualContent (filename : String) (resolver : Resolver) :
    Except VCError String :=
  if jsStartsWith filename externalPrefixStr then
    .ok (externalShim (jsSliceFrom filename externalPrefixStr.data.length))
  else
    match decodeVirtualPairComponent filename with
    | .error _ => .error .uriError
    | .ok (some m) => .ok (pairedComponentShim m)
    | .ok none =>
      match decodeFastbootSwitch filename with
      | some fb => .ok (fastbootSwitchTemplate fb)
      | none =>
        match decodeImplicitModules filename with
        | some im => renderImplicitModules im resolver
        | none => .error (.unrecognized filename)

/-! ### The four recognizers, as used for the exclusivity claim -/

def externalMatches (f : String) : Bool := jsStartsWith f externalPrefixStr

def pairMatches (f : String) : Bool := (pairSplit f).isSome

def fastbootMatches (f : String) : Bool := (decodeFastbootSwitch f).isSome

def implicitMatches (f : String) : Bool := (decodeImplicitModules f).isSome

/-- How many of the four decoders recognize a filename. -/
def matchCount (f : String) : Nat :=
  (if externalMatches f then 1 else 0) + (if pairMatches f then 1 else 0) +
    (if fastbootMatches f then 1 else 0) + (if implicitMatches f then 1 else 0)

/-! ## Auxiliary definitions used to state the claims -/

/-- Build an absolute path from segments. -/
def mkAbs (segs : List (List Char)) : String :=
  String.mk ('/' :: joinChar '/' segs)

/-- Number of leading `..` segments of a relative path. -/
def leadingDotDots (s : String) : Nat :=
  ((segsOf s).takeWhile (fun seg => seg == ['.', '.'])).length

/-- The exact condition under which the paired-component decoder throws:
its pattern matched and the percent-decoding of the `jsModule` group
failed. -/
def pairThrowCond (f : String) : Bool :=
  match pairSplit f with
  | some (_, jsM) => (decodeURIComponent jsM).isNone
  | none => false

/-- Is an error one of the two failure conditions the spec documents for
the dispatcher (`unrecognized virtual file`, invalid owning package)? -/
def isDocumentedError : VCError → Bool
  | .unrecognized _ => true
  | .invalidPackage _ => true
  | .uriError => false

/-- A resolver whose package graph is empty. -/
def emptyResolver : Resolver :=
  { resolvableExtensions := [], ownerOfFile := fun _ => none }

/-- A v2 addon that is an engine and declares an implicit module. -/
def engineDep : Package :=
  .mk "eng" true true true { implicitMods := some ["foo.js"] }
    (fun _ => .dependencies) []

/-- An owning package whose only dependency is the engine above. -/
def ownerWithEngine : Package :=
  .mk "app" true false false {} (fun _ => .dependencies) [engineDep]

/-- A plain (non-engine) v2 addon declaring an implicit module. -/
def plainDep : Package :=
  .mk "plain-addon" true true false { implicitMods := some ["bar.js"] }
    (fun _ => .dependencies) []

/-- An owning package with one plain v2-addon dependency. -/
def ownerWithPlain : Package :=
  .mk "app2" true false false {} (fun _ => .dependencies) [plainDep]

/-! ## List, line-terminator and codec lemmas -/

theorem splitOnChar_ne_nil (c : Char) (l : List Char) : splitOnChar c l ≠ [] := by
  cases l with
  | nil => simp [splitOnChar]
  | cons x xs =>
    simp only [splitOnChar]
    cases h : splitOnChar c xs with
    | nil => simp
    | cons s ss =>
      by_cases hx : x = c <;> simp [hx]

theorem joinChar_splitOnChar (c : Char) (l : List Char) :
    joinChar c (splitOnChar c l) = l := by
  induction l with
  | nil => rfl
  | cons x xs ih =>
    simp only [splitOnChar]
    cases h : splitOnChar c xs with
    | nil => exact absurd h (splitOnChar_ne_nil c xs)
    | cons s ss =>
      by_cases hx : x = c
      · subst hx
        simp only [if_pos rfl]
        rw [h] at ih
        cases ss with
        | nil => simpa [joinChar] using ih
        | cons t ts => simpa [joinChar] using ih
      · simp only [if_neg hx]
        rw [h] at ih
        cases ss with
        | nil => simpa [joinChar] using ih
        | cons t ts => simpa [joinChar] using ih

theorem splitOnChar_append (c : Char) (a b : List Char) :
    splitOnChar c (a ++ c :: b) = splitOnChar c a ++ splitOnChar c b := by
  induction a with
  | nil =>
    simp only [List.nil_append, splitOnChar]
    cases h : splitOnChar c b with
    | nil => exact absurd h (splitOnChar_ne_nil c b)
    | cons s ss => simp
  | cons x xs ih =>
    cases h : splitOnChar c xs with
    | nil => exact absurd h (splitOnChar_ne_nil c xs)
    | cons s ss =>
      by_cases hx : x = c <;> simp [splitOnChar, ih, h, hx]

theorem splitOnChar_not_mem (c : Char) (l : List Char) (h : c ∉ l) :
    splitOnChar c l = [l] := by
  induction l with
  | nil => rfl
  | cons x xs ih =>
    simp only [List.mem_cons, not_or] at h
    have hx : x ≠ c := fun hh => h.1 hh.symm
    simp only [splitOnChar, ih h.2, if_neg hx]

/-- Splitting the join of `c`-free pieces recovers the pieces. -/
theorem splitOnChar_joinChar (c : Char) (parts : List (List Char))
    (hne : parts ≠ []) (hfree : ∀ p ∈ parts, c ∉ p) :
    splitOnChar c (joinChar c parts) = parts := by
  induction parts with
  | nil => exact absurd rfl hne
  | cons p ps ih =>
    cases ps with
    | nil =>
      simp only [joinChar]
      exact splitOnChar_not_mem c p (hfree p (by simp))
    | cons q qs =>
      have hjoin : joinChar c (p :: q :: qs) = p ++ c :: joinChar c (q :: qs) := rfl
      rw [hjoin, splitOnChar_append,
        splitOnChar_not_mem c p (hfree p (by simp)),
        ih (by simp) (fun r hr => hfree r (List.mem_cons_of_mem p hr))]
      rfl

/-- Every character of the join comes from a piece or is the separator. -/
theorem mem_joinChar (c : Char) (parts : List (List Char)) (x : Char)
    (hx : x ∈ joinChar c parts) : x = c ∨ ∃ p ∈ parts, x ∈ p := by
  induction parts with
  | nil => simp [joinChar] at hx
  | cons p ps ih =>
    cases ps with
    | nil =>
      simp only [joinChar] at hx
      exact Or.inr ⟨p, by simp, hx⟩
    | cons q qs =>
      have : x ∈ p ++ c :: joinChar c (q :: qs) := hx
      rcases List.mem_append.1 this with h | h
      · exact Or.inr ⟨p, by simp, h⟩
      · rcases List.mem_cons.1 h with h | h
        · exact Or.inl h
        · rcases ih h with h | ⟨r, hr, hxr⟩
          · exact Or.inl h
          · exact Or.inr ⟨r, List.mem_cons_of_mem p hr, hxr⟩

theorem joinChar_eq_nil_iff (c : Char) (parts : List (List Char))
    (hne : parts ≠ []) (hpne : ∀ p ∈ parts, p ≠ []) :
    joinChar c parts ≠ [] := by
  cases parts with
  | nil => exact absurd rfl hne
  | cons p ps =>
    cases ps with
    | nil => exact hpne p (by simp)
    | cons q qs =>
      have hp := hpne p (by simp)
      intro h
      have : p ++ c :: joinChar c (q :: qs) = [] := h
      simp at this

theorem afterLastLineTerm_of_noLineTerm (l : List Char) (h : noLineTerm l = true) :
    afterLastLineTerm l = l := by
  induction l with
  | nil => rfl
  | cons c rest ih =>
    simp only [noLineTerm, List.all_cons, Bool.and_eq_true, Bool.not_eq_true'] at h
    have h2 : afterLastLineTerm rest = rest := by
      apply ih; simpa [noLineTerm] using h.2
    simp [afterLastLineTerm, h2, h.1]

/-! ### Codec facts used by the round-trip proofs -/

theorem hexVal_hexDigitChar (n : Nat) (h : n < 16) :
    hexVal (hexDigitChar n) = some n := by
  interval_cases n <;> decide

theorem encList_append (a b : List Char) :
    encList (a ++ b) = encList a ++ encList b := by
  induction a with
  | nil => rfl
  | cons c cs ih => simp [encList, ih]

theorem char_toNat_lt (c : Char) : c.toNat < 1114112 := by
  rcases c.valid with h | h
  · exact Nat.lt_trans h (by norm_num)
  · exact h.2

theorem hexDigitChar_range (n : Nat) (h : n < 16) :
    48 ≤ (hexDigitChar n).toNat ∧ (hexDigitChar n).toNat ≤ 70 := by
  interval_cases n <;> decide

theorem utf8Bytes_lt (n : Nat) (h : n < 1114112) : ∀ b ∈ utf8Bytes n, b < 256 := by
  intro b hb
  unfold utf8Bytes at hb
  split at hb
  · simp at hb; omega
  · split at hb
    · simp at hb
      rcases hb with hb | hb <;> omega
    · split at hb
      · simp at hb
        rcases hb with hb | hb | hb <;> omega
      · simp at hb
        rcases hb with hb | hb | hb | hb <;> omega

theorem pctBytes_chars (bs : List Nat) (hbs : ∀ b ∈ bs, b < 256) :
    ∀ x ∈ pctBytes bs, x = '%' ∨ (48 ≤ x.toNat ∧ x.toNat ≤ 70) := by
  induction bs with
  | nil => intro x hx; simp [pctBytes] at hx
  | cons b br ih =>
    intro x hx
    rcases List.mem_append.1 hx with h | h
    · have hb : b < 256 := hbs b (by simp)
      simp only [pctByte, List.mem_cons, List.not_mem_nil, or_false] at h
      rcases h with h | h | h
      · exact Or.inl h
      · subst h; exact Or.inr (hexDigitChar_range _ (by omega))
      · subst h; exact Or.inr (hexDigitChar_range _ (by omega))
    · exact ih (fun b' hb' => hbs b' (List.mem_cons_of_mem _ hb')) x h

/-- Characters occurring in an encoded string: either an unreserved
character of the input, or `%`, or a hex digit (code 48–70). -/
theorem mem_encList (l : List Char) (x : Char) (hx : x ∈ encList l) :
    (isUnreservedURI x = true ∧ x ∈ l) ∨ x = '%' ∨
      (48 ≤ x.toNat ∧ x.toNat ≤ 70) := by
  induction l with
  | nil => simp [encList] at hx
  | cons c cs ih =>
    simp only [encList] at hx
    rcases List.mem_append.1 hx with h | h
    · by_cases hu : isUnreservedURI c
      · rw [if_pos hu] at h
        simp only [List.mem_singleton] at h
        subst h
        exact Or.inl ⟨hu, by simp⟩
      · rw [if_neg hu] at h
        exact Or.inr (pctBytes_chars _ (utf8Bytes_lt _ (char_toNat_lt c)) x h)
    · rcases ih h with ⟨h1, h2⟩ | h'
      · exact Or.inl ⟨h1, List.mem_cons_of_mem c h2⟩
      · exact Or.inr h'

theorem isLineTerm_not_unreserved (x : Char) (h : isLineTerm x = true) :
    isUnreservedURI x = false := by
  simp only [isLineTerm, Bool.or_eq_true, decide_eq_true_eq] at h
  rcases h with h | h | h | h
  · subst h; decide
  · subst h; decide
  · have hx := Char.ofNat_toNat x
    rw [h] at hx
    rw [← hx]; decide
  · have hx := Char.ofNat_toNat x
    rw [h] at hx
    rw [← hx]; decide

/-- The encoded string never contains `/`. -/
theorem encList_no_slash (l : List Char) : '/' ∉ encList l := by
  intro hmem
  rcases mem_encList l '/' hmem with ⟨h1, _⟩ | h | ⟨h1, h2⟩
  · exact absurd h1 (by decide)
  · exact absurd h (by decide)
  · have : ('/' : Char).toNat = 47 := by decide
    omega

/-- The encoded string never contains a line terminator. -/
theorem encList_noLineTerm (l : List Char) : noLineTerm (encList l) = true := by
  rw [noLineTerm, List.all_eq_true]
  intro x hx
  rcases mem_encList l x hx with ⟨h1, _⟩ | h | ⟨h1, h2⟩
  · simp only [Bool.not_eq_true']
    by_contra hlt
    rw [Bool.not_eq_false] at hlt
    rw [isLineTerm_not_unreserved x hlt] at h1
    exact absurd h1 (by decide)
  · subst h; decide
  · simp only [Bool.not_eq_true']
    by_contra hlt
    rw [Bool.not_eq_false] at hlt
    simp only [isLineTerm, Bool.or_eq_true, decide_eq_true_eq] at hlt
    rcases hlt with h | h | h | h
    · subst h; exact absurd h1 (by decide)
    · subst h; exact absurd h1 (by decide)
    · omega
    · omega

theorem isUnreservedURI_ne_pct (c : Char) (h : isUnreservedURI c = true) : c ≠ '%' := by
  intro hc; subst hc; exact absurd h (by decide)

theorem utf8Asm_inl (c : Char) (rest : List (Char ⊕ Nat)) :
    utf8Asm (Sum.inl c :: rest) = (utf8Asm rest).map (c :: ·) := rfl

theorem utf8Asm_inr_ascii (b : Nat) (hb : b < 128) (rest : List (Char ⊕ Nat)) :
    utf8Asm (Sum.inr b :: rest) = (utf8Asm rest).map (Char.ofNat b :: ·) := by
  show utf8AsmF (rest.length + 1) (Sum.inr b :: rest) = _
  rw [utf8AsmF.eq_def]
  simp only [if_pos hb]
  rfl

/-- `decodeURIComponent ∘ encodeURIComponent` is the identity on ASCII
strings (the only ones the paired-component encoder feeds it under the
validity assumptions). -/
theorem dec_enc_ascii (l : List Char) (h : ∀ c ∈ l, c.toNat < 128) :
    (pctTokens (encList l)).bind utf8Asm = some l := by
  induction l with
  | nil => rfl
  | cons c cs ih =>
    have hc : c.toNat < 128 := h c (by simp)
    have ihcs := ih (fun d hd => h d (List.mem_cons_of_mem c hd))
    obtain ⟨toks, htoks, hasm⟩ :
        ∃ toks, pctTokens (encList cs) = some toks ∧ utf8Asm toks = some cs := by
      cases hp : pctTokens (encList cs) with
      | none => rw [hp] at ihcs; simp at ihcs
      | some toks =>
        rw [hp] at ihcs
        exact ⟨toks, rfl, by simpa using ihcs⟩
    by_cases hu : isUnreservedURI c
    · have henc : encList (c :: cs) = c :: encList cs := by
        simp [encList, hu]
      have hne : c ≠ '%' := isUnreservedURI_ne_pct c hu
      rw [henc]
      have hp : pctTokens (c :: encList cs) = some (Sum.inl c :: toks) := by
        rw [pctTokens.eq_def]
        simp [hne, htoks]
      rw [hp, Option.some_bind, utf8Asm_inl, hasm, Option.map_some']
    · have henc : encList (c :: cs) =
          '%' :: hexDigitChar (c.toNat / 16) :: hexDigitChar (c.toNat % 16) :: encList cs := by
        simp [encList, hu, utf8Bytes, hc, pctBytes, pctByte]
      rw [henc]
      have hv1 : hexVal (hexDigitChar (c.toNat / 16)) = some (c.toNat / 16) :=
        hexVal_hexDigitChar _ (by omega)
      have hv2 : hexVal (hexDigitChar (c.toNat % 16)) = some (c.toNat % 16) :=
        hexVal_hexDigitChar _ (by omega)
      have hbyte : 16 * (c.toNat / 16) + c.toNat % 16 = c.toNat := by omega
      have hp : pctTokens ('%' :: hexDigitChar (c.toNat / 16) ::
          hexDigitChar (c.toNat % 16) :: encList cs) = some (Sum.inr c.toNat :: toks) := by
        rw [pctTokens.eq_def]
        simp [hv1, hv2, htoks, hbyte]
      rw [hp, Option.some_bind, utf8Asm_inr_ascii c.toNat hc, hasm, Option.map_some',
        Char.ofNat_toNat]

theorem decodeURIComponent_encodeURIComponent (s : String)
    (h : ∀ c ∈ s.data, c.toNat < 128) :
    decodeURIComponent (encodeURIComponent s) = some s := by
  simp only [decodeURIComponent, encodeURIComponent, dec_enc_ascii s.data h,
    Option.map_some]
  rfl

/-- The malformed segment the paired-component decoder can receive:
decoding a bare `%` fails (JS `decodeURIComponent` throws `URIError`). -/
theorem decodeURIComponent_malformed : decodeURIComponent "%" = none := by decide


/-! ## Helper lemmas about the recognizers -/

theorem jsEndsWith_iff (s suf : String) : jsEndsWith s suf = true ↔ suf.data <:+ s.data := by
  simp [jsEndsWith]

theorem pairMatches_suffix (f : String) (h : pairMatches f = true) :
    pairComponentMarker.data <:+ f.data := by
  by_cases hs : pairComponentMarker.data <:+ f.data
  · exact hs
  · exfalso
    simp [pairMatches, pairSplit, hs] at h

theorem implicitMatches_suffix (f : String) (h : implicitMatches f = true) :
    ("/#embroider-implicit-modules" : String).data <:+ f.data ∨
      ("/#embroider-implicit-test-modules" : String).data <:+ f.data := by
  by_cases h1 : jsEndsWith f "/#embroider-implicit-modules" = true
  · exact Or.inl ((jsEndsWith_iff _ _).1 h1)
  by_cases h2 : jsEndsWith f "/#embroider-implicit-test-modules" = true
  · exact Or.inr ((jsEndsWith_iff _ _).1 h2)
  exfalso
  rw [Bool.not_eq_true] at h1 h2
  simp [implicitMatches, decodeImplicitModules, h1, h2] at h

/-! ## C10: external-shim priority round-trip -/

/-- **C10.**  For every module name — including names that end in another
kind's marker — `virtualContent (virtualExternalModule m)` takes the
external-shim branch and renders the external shim for exactly `m`,
because the external prefix is checked before any other decoder. -/
theorem external_shim_priority (m : String) (r : Resolver) :
    virtualContent (virtualExternalModule m) r = .ok (externalShim m) := by
  have hdata : (virtualExternalModule m).data = externalPrefixStr.data ++ m.data := by
    simp [virtualExternalModule, String.data_append]
  have hstart : jsStartsWith (virtualExternalModule m) externalPrefixStr = true := by
    rw [jsStartsWith, hdata]
    exact List.isPrefixOf_iff_prefix.mpr (List.prefix_append _ _)
  unfold virtualContent
  rw [if_pos hstart, jsSliceFrom, hdata, List.drop_left]

/-! ## C3: decoder exclusivity -/

/-- **C3, counterexample.**  The filename
`/@embroider/external/a/b/embroider-pair-component` is recognized both by
the external-prefix check and by the paired-component pattern, so "at
most one of the four decoders matches" is false. -/
theorem decoder_exclusivity_cex :
    2 ≤ matchCount "/@embroider/external/a/b/embroider-pair-component" := by decide

/-- **C3, amended.**  The two purely suffix-shaped decoders — the
paired-component pattern and the implicit-modules suffix match — are
mutually exclusive; the external-prefix and fastboot-switch recognizers
can overlap with the others, and the dispatcher's fixed order picks the
first match. -/
theorem pair_implicit_exclusive (f : String) :
    ¬(pairMatches f = true ∧ implicitMatches f = true) := by
  rintro ⟨hp, hi⟩
  have hs := pairMatches_suffix f hp
  rcases implicitMatches_suffix f hi with h | h
  · rcases List.suffix_or_suffix_of_suffix hs h with h' | h'
    · exact absurd h' (by decide)
    · exact absurd h' (by decide)
  · rcases List.suffix_or_suffix_of_suffix hs h with h' | h'
    · exact absurd h' (by decide)
    · exact absurd h' (by decide)

/-- **C3, amended, witness.** -/
theorem pair_implicit_exclusive_witness :
    ¬(pairMatches "/a/b/embroider-pair-component" = true ∧
        implicitMatches "/a/b/embroider-pair-component" = true) :=
  pair_implicit_exclusive "/a/b/embroider-pair-component"

/-! ## C5: decode totality -/

/-- **C5, counterexample.**  The paired-component decoder *does* throw on
a matching filename whose percent-encoded segment is malformed:
`decodeURIComponent('%')` raises `URIError` (modelled as
`Except.error ()`), so "no decoder ever throws" is false. -/
theorem pair_decoder_throws_cex :
    decodeVirtualPairComponent "/a/%/embroider-pair-component" = .error () := rfl

/-- **C5, amended.**  The external, fastboot-switch and implicit-modules
decoders are total functions whose "no match" result is a normal value,
and the paired-component decoder returns normally ("no match" or decoded
parameters) in every case *except* exactly when its pattern matches and
the percent-decoding of the embedded `jsModule` segment is malformed, in
which case it throws `URIError`. -/
theorem pair_decoder_throw_iff (f : String) :
    decodeVirtualPairComponent f = .error () ↔ pairThrowCond f = true := by
  unfold decodeVirtualPairComponent pairThrowCond
  cases hps : pairSplit f with
  | none => simp
  | some pr =>
    obtain ⟨hm, jm⟩ := pr
    cases hd : decodeURIComponent jm with
    | none => simp [hd]
    | some d => simp [hd]

/-- **C5, amended, witness.** -/
theorem pair_decoder_throw_iff_witness :
    decodeVirtualPairComponent "/a/%25x%/embroider-pair-component" = .error () :=
  (pair_decoder_throw_iff "/a/%25x%/embroider-pair-component").mpr (by decide)

/-! ## C9: implicit-modules precondition -/

/-- **C9.**  For an implicit-modules request whose `fromFile` has no
owning package, or whose owning package is not a v2 Ember package, the
generator fails with the `invalidPackage` condition — an error distinct
from the dispatcher's `unrecognized` error; for a valid v2 owner it
renders the aggregated manifests and raises no error. -/
theorem implicit_modules_precondition (im : ImplicitInfo) (r : Resolver) :
    (r.ownerOfFile im.fromFile = none →
      renderImplicitModules im r = .error (.invalidPackage im.fromFile)) ∧
    (∀ pkg, r.ownerOfFile im.fromFile = some pkg → pkg.isV2Ember = false →
      renderImplicitModules im r = .error (.invalidPackage im.fromFile)) ∧
    (∀ pkg, r.ownerOfFile im.fromFile = some pkg → pkg.isV2Ember = true →
      renderImplicitModules im r = .ok (implicitModulesTemplate
        (implicitManifests pkg im.type r.resolvableExtensions))) ∧
    (∀ f', VCError.invalidPackage im.fromFile ≠ VCError.unrecognized f') := by
  refine ⟨?_, ?_, ?_, ?_⟩
  · intro h; simp [renderImplicitModules, h]
  · intro pkg h hv; simp [renderImplicitModules, h, hv]
  · intro pkg h hv; simp [renderImplicitModules, h, hv]
  · intro f' hcontra; exact VCError.noConfusion hcontra

/-- **C9, witness.** -/
theorem implicit_modules_precondition_witness :
    renderImplicitModules { type := .implicitModules, fromFile := "/app/x" }
      emptyResolver = .error (.invalidPackage "/app/x") :=
  (implicit_modules_precondition
    { type := .implicitModules, fromFile := "/app/x" } emptyResolver).1 rfl

/-! ## C4: dispatcher contract -/

/-- **C4, counterexample.**  `virtualContent` can fail with an error that
is neither the `unrecognized virtual file` condition nor the
invalid-owning-package condition: on
`/a/%/embroider-pair-component` the paired-component decoder matches and
its percent-decoding throws, and that `URIError` escapes the
dispatcher. -/
theorem dispatcher_contract_cex :
    virtualContent "/a/%/embroider-pair-component" emptyResolver = .error .uriError ∧
      isDocumentedError .uriError = false := ⟨rfl, rfl⟩

/-- **C4, amended.**  The dispatcher tries the decoders in the fixed
order external prefix → paired component → fastboot switch → implicit
modules, renders via the generator of the first match, and fails with the
`unrecognized` error carrying the filename when none match; the only
other failures are the invalid-owning-package condition of the
implicit-modules generator and the `URIError` thrown by the
paired-component decoder on a malformed percent segment. -/
theorem dispatcher_contract (f : String) (r : Resolver) :
    (externalMatches f = true →
      virtualContent f r =
        .ok (externalShim (jsSliceFrom f externalPrefixStr.data.length))) ∧
    (externalMatches f = false → ∀ p, decodeVirtualPairComponent f = .ok (some p) →
      virtualContent f r = .ok (pairedComponentShim p)) ∧
    (externalMatches f = false → decodeVirtualPairComponent f = .error () →
      virtualContent f r = .error .uriError) ∧
    (externalMatches f = false → decodeVirtualPairComponent f = .ok none →
      ∀ fb, decodeFastbootSwitch f = some fb →
      virtualContent f r = .ok (fastbootSwitchTemplate fb)) ∧
    (externalMatches f = false → decodeVirtualPairComponent f = .ok none →
      decodeFastbootSwitch f = none → ∀ im, decodeImplicitModules f = some im →
      virtualContent f r = renderImplicitModules im r) ∧
    (externalMatches f = false → decodeVirtualPairComponent f = .ok none →
      decodeFastbootSwitch f = none → decodeImplicitModules f = none →
      virtualContent f r = .error (.unrecognized f)) ∧
    (∀ e, virtualContent f r = .error e →
      e = .unrecognized f ∨ e = .uriError ∨ ∃ ff, e = .invalidPackage ff) := by
  refine ⟨?_, ?_, ?_, ?_, ?_, ?_, ?_⟩
  · intro hext
    rw [externalMatches] at hext
    simp [virtualContent, hext]
  · intro hext p hp
    rw [externalMatches] at hext
    simp [virtualContent, hext, hp]
  · intro hext hp
    rw [externalMatches] at hext
    simp [virtualContent, hext, hp]
  · intro hext hp fb hfb
    rw [externalMatches] at hext
    simp [virtualContent, hext, hp, hfb]
  · intro hext hp hfb im him
    rw [externalMatches] at hext
    simp [virtualContent, hext, hp, hfb, him]
  · intro hext hp hfb him
    rw [externalMatches] at hext
    simp [virtualContent, hext, hp, hfb, him]
  · intro e he
    unfold virtualContent at he
    by_cases hext : jsStartsWith f externalPrefixStr = true
    · rw [if_pos hext] at he
      exact absurd he (by simp)
    · rw [if_neg hext] at he
      cases hp : decodeVirtualPairComponent f with
      | error u =>
        simp only [hp] at he
        simp at he
        exact Or.inr (Or.inl he.symm)
      | ok o =>
        cases o with
        | some m =>
          simp only [hp] at he
          exact absurd he (by simp)
        | none =>
          cases hfb : decodeFastbootSwitch f with
          | some fb =>
            simp only [hp, hfb] at he
            exact absurd he (by simp)
          | none =>
            cases him : decodeImplicitModules f with
            | some im =>
              simp only [hp, hfb, him] at he
              unfold renderImplicitModules at he
              cases how : r.ownerOfFile im.fromFile with
              | none =>
                simp only [how] at he
                simp at he
                exact Or.inr (Or.inr ⟨im.fromFile, he.symm⟩)
              | some pkg =>
                simp only [how] at he
                by_cases hv : pkg.isV2Ember = true
                · rw [if_pos hv] at he
                  exact absurd he (by simp)
                · rw [if_neg hv] at he
                  simp at he
                  exact Or.inr (Or.inr ⟨im.fromFile, he.symm⟩)
            | none =>
              simp only [hp, hfb, him] at he
              simp at he
              exact Or.inl he.symm

/-- **C4, amended, witness.** -/
theorem dispatcher_contract_witness :
    virtualContent "not-a-virtual-file" emptyResolver =
      .error (.unrecognized "not-a-virtual-file") :=
  (dispatcher_contract "not-a-virtual-file" emptyResolver).2.2.2.2.2.1
    rfl rfl rfl rfl

/-! ## Character-membership lemmas for paths -/

theorem noLineTerm_iff (l : List Char) :
    noLineTerm l = true ↔ ∀ x ∈ l, isLineTerm x = false := by
  simp [noLineTerm, List.all_eq_true]

theorem mem_splitOnChar (c : Char) (l : List Char) :
    ∀ p ∈ splitOnChar c l, ∀ x ∈ p, x ∈ l := by
  induction l with
  | nil =>
    intro p hp x hx
    simp [splitOnChar] at hp
    subst hp
    simp at hx
  | cons y ys ih =>
    intro p hp x hx
    cases h : splitOnChar c ys with
    | nil => exact absurd h (splitOnChar_ne_nil c ys)
    | cons s ss =>
      simp only [splitOnChar, h] at hp
      by_cases hy : y = c
      · rw [if_pos hy] at hp
        rcases List.mem_cons.1 hp with hp | hp
        · subst hp; simp at hx
        · exact List.mem_cons_of_mem y (ih p (h ▸ hp) x hx)
      · rw [if_neg hy] at hp
        rcases List.mem_cons.1 hp with hp | hp
        · subst hp
          rcases List.mem_cons.1 hx with hx | hx
          · exact hx ▸ List.mem_cons_self y ys
          · exact List.mem_cons_of_mem y
              (ih s (h ▸ List.mem_cons_self s ss) x hx)
        · exact List.mem_cons_of_mem y
            (ih p (h ▸ List.mem_cons_of_mem s hp) x hx)

theorem mem_segsOf_char (s : String) (p : List Char) (hp : p ∈ segsOf s)
    (x : Char) (hx : x ∈ p) : x ∈ s.data := by
  have hp' : p ∈ splitOnChar '/' s.data := List.mem_of_mem_filter hp
  exact mem_splitOnChar '/' s.data p hp' x hx

theorem mem_normAbsSegs (l acc : List (List Char)) :
    ∀ p ∈ normAbsSegs acc l, p ∈ acc ∨ p ∈ l := by
  induction l generalizing acc with
  | nil => intro p hp; exact Or.inl hp
  | cons s rest ih =>
    intro p hp
    simp only [normAbsSegs] at hp
    by_cases h1 : s = [] ∨ s = ['.']
    · rw [if_pos h1] at hp
      rcases ih acc p hp with h | h
      · exact Or.inl h
      · exact Or.inr (List.mem_cons_of_mem s h)
    · rw [if_neg h1] at hp
      by_cases h2 : s = ['.', '.']
      · rw [if_pos h2] at hp
        rcases ih acc.dropLast p hp with h | h
        · exact Or.inl ((List.dropLast_prefix acc).subset h)
        · exact Or.inr (List.mem_cons_of_mem s h)
      · rw [if_neg h2] at hp
        rcases ih (acc ++ [s]) p hp with h | h
        · rcases List.mem_append.1 h with h | h
          · exact Or.inl h
          · simp only [List.mem_singleton] at h
            exact Or.inr (h ▸ List.mem_cons_self s rest)
        · exact Or.inr (List.mem_cons_of_mem s h)

theorem dirnameStr_noLT (s : String) (h : noLineTerm s.data = true) :
    noLineTerm (dirnameStr s).data = true := by
  rw [noLineTerm_iff]
  intro x hx
  unfold dirnameStr at hx
  cases hsp : splitOnChar '/' s.data with
  | nil => rw [hsp] at hx; simp at hx; subst hx; decide
  | cons p ps =>
    rw [hsp] at hx
    cases ps with
    | nil => simp at hx; subst hx; decide
    | cons q qs =>
      by_cases hall : ((p :: q :: qs).dropLast).all (· = []) = true
      · simp only [hall, if_true] at hx
        simp at hx
        subst hx; decide
      · rw [Bool.not_eq_true] at hall
        simp only [hall] at hx
        simp only [Bool.false_eq_true, if_false] at hx
        have hx' : x ∈ joinChar '/' ((p :: q :: qs).dropLast) := hx
        rcases mem_joinChar '/' _ x hx' with he | ⟨r, hr, hxr⟩
        · subst he; decide
        · have hr' : r ∈ splitOnChar '/' s.data :=
            hsp ▸ (List.dropLast_prefix (p :: q :: qs)).subset hr
          exact (noLineTerm_iff _).1 h x (mem_splitOnChar '/' s.data r hr' x hxr)

theorem resolvePath_noLT (dir p : String) (h1 : noLineTerm dir.data = true)
    (h2 : noLineTerm p.data = true) :
    noLineTerm (resolvePath dir p).data = true := by
  rw [noLineTerm_iff]
  intro x hx
  unfold resolvePath at hx
  split at hx <;>
  · rcases List.mem_cons.1 hx with he | hj
    · subst he; decide
    · rcases mem_joinChar '/' _ x hj with he | ⟨r, hr, hxr⟩
      · subst he; decide
      · rcases mem_normAbsSegs _ [] r hr with h | h
        · simp at h
        · first
          | exact (noLineTerm_iff _).1 h2 x (mem_segsOf_char p r h x hxr)
          | (rcases List.mem_append.1 h with h | h
             · exact (noLineTerm_iff _).1 h1 x (mem_segsOf_char dir r h x hxr)
             · exact (noLineTerm_iff _).1 h2 x (mem_segsOf_char p r h x hxr))

theorem resolvePath_ne_nil (dir p : String) : (resolvePath dir p).data ≠ [] := by
  unfold resolvePath
  split <;> simp

/-! ## The fastboot decode on encoder-shaped strings -/

theorem searchDown_eq (p : Nat → Bool) (n m : Nat) (hm : m ≤ n) (hpm : p m = true)
    (hup : ∀ k, m < k → k ≤ n → p k = false) : searchDown p n = some m := by
  induction n with
  | zero =>
    interval_cases m
    simp [searchDown, hpm]
  | succ n ih =>
    by_cases hEq : m = n + 1
    · subst hEq
      simp [searchDown, hpm]
    · have hm' : m ≤ n := by omega
      have hfalse : p (n + 1) = false := hup (n + 1) (by omega) (by omega)
      simp only [searchDown, hfalse, Bool.false_eq_true, if_false]
      exact ih hm' (fun k h1 h2 => hup k h1 (by omega))

theorem fbMarkerAt_encode (P : String) (Q : List Char) :
    fbMarkerAt (P.data ++ fastbootSwitchSuffix.data ++ Q) P.data.length = true := by
  unfold fbMarkerAt
  rw [List.append_assoc, List.drop_left]
  exact List.isPrefixOf_iff_prefix.mpr (List.prefix_append _ _)

theorem fbMarkerAt_past (P : String) (Q : List Char) (hQ : '/' ∉ Q)
    (j : Nat) (hj : P.data.length < j) :
    fbMarkerAt (P.data ++ fastbootSwitchSuffix.data ++ Q) j = false := by
  set M := fastbootSwitchSuffix.data with hM
  by_contra hcon
  rw [Bool.not_eq_false] at hcon
  unfold fbMarkerAt at hcon
  have hpre := List.isPrefixOf_iff_prefix.1 hcon
  have hdrop : (P.data ++ M ++ Q).drop j = (M ++ Q).drop (j - P.data.length) := by
    rw [List.append_assoc, List.drop_append_eq_append_drop,
      List.drop_eq_nil_of_le (by omega), List.nil_append]
  -- the head of the would-be marker occurrence is '/'
  have hhead : '/' ∈ (P.data ++ M ++ Q).drop j := by
    have hexp : fastbootSwitchSuffix.data = '/' :: "embroider_fastboot_switch".data := rfl
    rcases hpre with ⟨t, ht⟩
    rw [← ht, hexp]
    simp
  rw [hdrop] at hhead
  set k := j - P.data.length with hk
  have hk1 : 1 ≤ k := by omega
  have hsub : (M ++ Q).drop k ⊆ (M ++ Q).drop 1 := by
    have : (M ++ Q).drop k = ((M ++ Q).drop 1).drop (k - 1) := by
      rw [List.drop_drop]
      congr 1
      omega
    rw [this]
    exact List.drop_subset _ _
  have hmem : '/' ∈ (M ++ Q).drop 1 := hsub hhead
  have hsplit : (M ++ Q).drop 1 = M.drop 1 ++ Q := by
    rw [List.drop_append_eq_append_drop]
    rfl
  rw [hsplit] at hmem
  rcases List.mem_append.1 hmem with h | h
  · rw [hM] at h
    exact absurd h (by decide)
  · exact hQ h

/-- Decoding a string of the exact shape the encoder produces. -/
theorem decodeFB_encodeShape (f P : String) (Q : List Char)
    (hf : f.data = P.data ++ fastbootSwitchSuffix.data ++ Q)
    (hPne : P.data ≠ []) (hPlt : noLineTerm P.data = true)
    (hQslash : '/' ∉ Q) (hvia : fbViableTail Q = true) :
    decodeFastbootSwitch f =
      some { names := (if Q = [] then []
                       else (splitOnChar ',' (Q.drop 7)).map String.mk).filter (· ≠ "default"),
             hasDefaultExport := (if Q = [] then []
                       else (splitOnChar ',' (Q.drop 7)).map String.mk).contains "default",
             filename := P } := by
  set M := fastbootSwitchSuffix.data with hM
  set D := P.data ++ M ++ Q with hD
  have h26 : M.length = 26 := by rw [hM]; rfl
  have hdrop : D.drop (P.data.length + 26) = Q := by
    rw [hD, List.append_assoc, ← List.drop_drop, List.drop_left, ← h26, List.drop_left]
  have hlen : D.length = P.data.length + 26 + Q.length := by
    rw [hD]
    simp [List.length_append, h26]
    omega
  have hviable : fbViableAt D P.data.length = true := by
    unfold fbViableAt
    rw [fbMarkerAt_encode P Q, hdrop, hvia]
    rfl
  have hpast : ∀ k, P.data.length < k → k ≤ D.length → fbViableAt D k = false := by
    intro k h1 h2
    unfold fbViableAt
    rw [fbMarkerAt_past P Q hQslash k h1]
    rfl
  have hsearch : searchDown (fbViableAt D) D.length = some P.data.length :=
    searchDown_eq _ _ _ (by omega) hviable hpast
  have htake : D.take P.data.length = P.data := by
    rw [hD, List.append_assoc, List.take_left]
  simp only [decodeFastbootSwitch, hf, ← hD, hsearch, htake,
    afterLastLineTerm_of_noLineTerm P.data hPlt, if_neg hPne, hdrop]

/-- **C2.**  Fastboot round-trip: decoding an encoded fastboot switch
yields `names` equal to the requested name set with any literal
`"default"` removed, `hasDefaultExport` true iff `"default"` was
requested, and an absent `?names=` query (empty set) yields the empty
list and `false`.  The names are export identifiers: nonempty, free of
`,`, `/` and line terminators; the two paths are free of line
terminators. -/
theorem fastboot_roundtrip (specifier fromFile : String) (names : List String)
    (h1 : noLineTerm fromFile.data = true) (h2 : noLineTerm specifier.data = true)
    (h3 : ∀ n ∈ names, n.data ≠ [] ∧ ',' ∉ n.data ∧ '/' ∉ n.data ∧
      noLineTerm n.data = true) :
    decodeFastbootSwitch (fastbootSwitch specifier fromFile names) =
      some { names := names.filter (· ≠ "default"),
             hasDefaultExport := names.contains "default",
             filename := resolvePath (dirnameStr fromFile) specifier } := by
  set P := resolvePath (dirnameStr fromFile) specifier with hP
  have hPne : P.data ≠ [] := resolvePath_ne_nil _ _
  have hPlt : noLineTerm P.data = true :=
    resolvePath_noLT _ _ (dirnameStr_noLT fromFile h1) h2
  cases hnames : names with
  | nil =>
    have hf : (fastbootSwitch specifier fromFile []).data =
        P.data ++ fastbootSwitchSuffix.data ++ [] := by
      simp [fastbootSwitch, ← hP, String.data_append]
    have := decodeFB_encodeShape _ P [] hf hPne hPlt (by simp) (by rfl)
    rw [this]
    rfl
  | cons n0 ns =>
    rw [← hnames]
    have hnamesne : names ≠ [] := by rw [hnames]; simp
    set X := joinChar ',' (names.map String.data) with hX
    have hXpieces : ∀ p ∈ names.map String.data, p ≠ [] ∧ ',' ∉ p := by
      intro p hp
      rcases List.mem_map.1 hp with ⟨n, hn, hpn⟩
      exact ⟨hpn ▸ (h3 n hn).1, hpn ▸ (h3 n hn).2.1⟩
    have hXne : X ≠ [] := by
      rw [hX]
      exact joinChar_eq_nil_iff ',' _ (by simp [hnamesne])
        (fun p hp => (hXpieces p hp).1)
    have hQne : ("?names=".data ++ X) ≠ [] := by simp
    have hdrop7 : ("?names=".data ++ X).drop 7 = X := by
      have h7 : ("?names=".data).length = 7 := rfl
      rw [← h7, List.drop_left]
    have hf : (fastbootSwitch specifier fromFile names).data =
        P.data ++ fastbootSwitchSuffix.data ++ ("?names=".data ++ X) := by
      have hpos : names.length > 0 := by rw [hnames]; simp
      simp only [fastbootSwitch, hpos, if_pos, ← hP, ← hX]
      simp [String.data_append, List.append_assoc]
    have hXchars : ∀ x ∈ X, x = ',' ∨ ∃ n ∈ names, x ∈ n.data := by
      intro x hx
      rcases mem_joinChar ',' _ x (hX ▸ hx) with he | ⟨p, hp, hxp⟩
      · exact Or.inl he
      · rcases List.mem_map.1 hp with ⟨n, hn, hpn⟩
        exact Or.inr ⟨n, hn, hpn ▸ hxp⟩
    have hQslash : '/' ∉ ("?names=".data ++ X) := by
      intro hmem
      rcases List.mem_append.1 hmem with h | h
      · exact absurd h (by decide)
      · rcases hXchars '/' h with he | ⟨n, hn, hx⟩
        · exact absurd he (by decide)
        · exact (h3 n hn).2.2.1 hx
    have hXlt : noLineTerm X = true := by
      rw [noLineTerm_iff]
      intro x hx
      rcases hXchars x hx with he | ⟨n, hn, hxn⟩
      · subst he; decide
      · exact (noLineTerm_iff _).1 (h3 n hn).2.2.2 x hxn
    have hpre : ("?names=".data).isPrefixOf ("?names=".data ++ X) = true :=
      List.isPrefixOf_iff_prefix.mpr (List.prefix_append _ _)
    have hvia : fbViableTail ("?names=".data ++ X) = true := by
      simp [fbViableTail, hdrop7, hpre, hXne, hXlt]
    have hdec := decodeFB_encodeShape _ P ("?names=".data ++ X)
      hf hPne hPlt hQslash hvia
    rw [hdec]
    have hsplit : splitOnChar ',' X = names.map String.data := by
      rw [hX]
      exact splitOnChar_joinChar ',' _ (by simp [hnamesne])
        (fun p hp => (hXpieces p hp).2)
    have hmapmk : (names.map String.data).map String.mk = names := by
      rw [List.map_map]
      calc names.map (String.mk ∘ String.data)
          = names.map id := List.map_congr_left (fun n _ => rfl)
        _ = names := List.map_id names
    simp only [if_neg hQne, hdrop7, hsplit, hmapmk]

/-- **C2, witness** (spec scenario C). -/
theorem fastboot_roundtrip_witness :
    decodeFastbootSwitch (fastbootSwitch "./thing" "/pkg/index.js" ["default", "bar"]) =
      some { names := ["bar"], hasDefaultExport := true, filename := "/pkg/thing" } := by
  have h := fastboot_roundtrip "./thing" "/pkg/index.js" ["default", "bar"]
    (by decide) (by decide) (by decide)
  rw [h]
  rfl

/-! ## The `orderAddons` sort (C8) -/

theorem orderAddons_eq (a b : Package) : orderAddons a b = orderKey a - orderKey b := rfl

theorem orderAddons_le_iff (a b : Package) :
    orderAddons a b ≤ 0 ↔ orderKey a ≤ orderKey b := by
  rw [orderAddons_eq]
  omega

theorem sortInsert_perm (x : Package) (l : List Package) :
    (sortInsert x l).Perm (x :: l) := by
  induction l with
  | nil => exact List.Perm.refl _
  | cons y ys ih =>
    unfold sortInsert
    by_cases h : orderAddons x y ≤ 0
    · rw [if_pos h]
    · rw [if_neg h]
      exact (List.Perm.cons y ih).trans (List.Perm.swap x y ys)

theorem sortByOrder_perm (l : List Package) : (sortByOrder l).Perm l := by
  induction l with
  | nil => exact List.Perm.refl _
  | cons x xs ih => exact (sortInsert_perm x (sortByOrder xs)).trans (List.Perm.cons x ih)

theorem sortInsert_pairwise (x : Package) (l : List Package)
    (h : l.Pairwise (fun a b => orderKey a ≤ orderKey b)) :
    (sortInsert x l).Pairwise (fun a b => orderKey a ≤ orderKey b) := by
  induction l with
  | nil => simp [sortInsert]
  | cons y ys ih =>
    rcases List.pairwise_cons.1 h with ⟨hy, hys⟩
    unfold sortInsert
    by_cases hc : orderAddons x y ≤ 0
    · rw [if_pos hc]
      have hxy : orderKey x ≤ orderKey y := (orderAddons_le_iff x y).1 hc
      refine List.pairwise_cons.2 ⟨?_, h⟩
      intro z hz
      rcases List.mem_cons.1 hz with hz | hz
      · exact hz ▸ hxy
      · exact le_trans hxy (hy z hz)
    · rw [if_neg hc]
      have hyx : orderKey y ≤ orderKey x := by
        rw [orderAddons_eq] at hc
        omega
      refine List.pairwise_cons.2 ⟨?_, ih hys⟩
      intro z hz
      have hz' := (sortInsert_perm x ys).mem_iff.1 hz
      rcases List.mem_cons.1 hz' with hz' | hz'
      · exact hz' ▸ hyx
      · exact hy z hz'

theorem sortByOrder_pairwise (l : List Package) :
    (sortByOrder l).Pairwise (fun a b => orderKey a ≤ orderKey b) := by
  induction l with
  | nil => simp [sortByOrder]
  | cons x xs ih => exact sortInsert_pairwise x (sortByOrder xs) ih

theorem sortInsert_filter_key (x : Package) (l : List Package) (k : Int) :
    (sortInsert x l).filter (fun d => orderKey d == k) =
      if orderKey x == k then x :: l.filter (fun d => orderKey d == k)
      else l.filter (fun d => orderKey d == k) := by
  induction l with
  | nil =>
    by_cases hx : (orderKey x == k) = true <;> simp [sortInsert, List.filter, hx]
  | cons y ys ih =>
    unfold sortInsert
    by_cases hc : orderAddons x y ≤ 0
    · rw [if_pos hc]
      by_cases hx : (orderKey x == k) = true <;>
        by_cases hy : (orderKey y == k) = true <;>
          simp [List.filter_cons, hx, hy]
    · rw [if_neg hc]
      have hyx : orderKey y < orderKey x := by
        rw [orderAddons_eq] at hc
        omega
      by_cases hx : (orderKey x == k) = true
      · have hyk : ¬((orderKey y == k) = true) := by
          rw [beq_iff_eq] at hx ⊢
          omega
        simp [List.filter_cons, hyk, ih, hx]
      · by_cases hy : (orderKey y == k) = true <;>
          simp [List.filter_cons, hy, ih, hx]

theorem sortByOrder_filter_key (l : List Package) (k : Int) :
    (sortByOrder l).filter (fun d => orderKey d == k) =
      l.filter (fun d => orderKey d == k) := by
  induction l with
  | nil => rfl
  | cons x xs ih =>
    show (sortInsert x (sortByOrder xs)).filter _ = _
    rw [sortInsert_filter_key]
    by_cases hx : (orderKey x == k) = true <;> simp [List.filter_cons, hx, ih]

/-- **C8.**  `pkg.dependencies.sort(orderAddons)` sorts by the effective
`order-index` key (defaulting to `0` when the index is absent or the
dependency is not a v2 addon — that is `orderKey`, and
`orderAddons a b = orderKey a - orderKey b` definitionally), it permutes
the input, and it is stable: for every key value, the entries carrying
that key appear in the output in exactly their input order, so swapping
two same-index entries never changes their relative order. -/
theorem stable_ordering (deps : List Package) :
    (sortByOrder deps).Pairwise (fun a b => orderAddons a b ≤ 0) ∧
    (sortByOrder deps).Perm deps ∧
    ∀ k : Int, (sortByOrder deps).filter (fun d => orderKey d == k) =
      deps.filter (fun d => orderKey d == k) := by
  refine ⟨?_, sortByOrder_perm deps, fun k => sortByOrder_filter_key deps k⟩
  exact (sortByOrder_pairwise deps).imp (fun h => (orderAddons_le_iff _ _).2 h)

/-! ## Peer exclusion (C7) -/

theorem sortInsert_front (x : Package) (m : List Package)
    (h : ∀ z ∈ m, orderKey x ≤ orderKey z) : sortInsert x m = x :: m := by
  cases m with
  | nil => rfl
  | cons z zs =>
    unfold sortInsert
    rw [if_pos ((orderAddons_le_iff x z).2 (h z (by simp)))]

theorem sortInsert_filter_neg (p : Package → Bool) (x : Package) (s : List Package)
    (hx : p x = false) : (sortInsert x s).filter p = s.filter p := by
  induction s with
  | nil => simp [sortInsert, List.filter, hx]
  | cons y ys ih =>
    by_cases hc : orderAddons x y ≤ 0
    · simp [sortInsert, hc, List.filter_cons, hx]
    · by_cases hpy : p y = true <;>
        simp [sortInsert, hc, List.filter_cons, hpy, ih, hx]

theorem sortInsert_filter (p : Package → Bool) (x : Package) (s : List Package)
    (hs : s.Pairwise (fun a b => orderKey a ≤ orderKey b)) (hx : p x = true) :
    sortInsert x (s.filter p) = (sortInsert x s).filter p := by
  induction s with
  | nil => simp [sortInsert, List.filter, hx]
  | cons y ys ih =>
    rcases List.pairwise_cons.1 hs with ⟨hy, hys⟩
    by_cases hc : orderAddons x y ≤ 0
    · by_cases hpy : p y = true
      · simp [sortInsert, hc, List.filter_cons, hx, hpy]
      · have hfront : sortInsert x (ys.filter p) = x :: ys.filter p := by
          apply sortInsert_front
          intro z hz
          exact le_trans ((orderAddons_le_iff x y).1 hc)
            (hy z (List.mem_of_mem_filter hz))
        simp [sortInsert, hc, List.filter_cons, hpy, hx, hfront]
    · by_cases hpy : p y = true <;>
        simp [sortInsert, hc, List.filter_cons, hpy, hx, ih hys]

theorem sortByOrder_filter (p : Package → Bool) (l : List Package) :
    sortByOrder (l.filter p) = (sortByOrder l).filter p := by
  induction l with
  | nil => rfl
  | cons x xs ih =>
    by_cases hx : p x = true
    · rw [List.filter_cons, if_pos hx]
      show sortInsert x (sortByOrder (xs.filter p)) = _
      rw [ih, sortInsert_filter p x (sortByOrder xs) (sortByOrder_pairwise xs) hx]
      rfl
    · rw [List.filter_cons, if_neg hx]
      show sortByOrder (xs.filter p) = _
      rw [ih]
      rw [Bool.not_eq_true] at hx
      exact (sortInsert_filter_neg p x (sortByOrder xs) hx).symm

theorem foldl_filter_skip {α β : Type} (step : β → α → β) (q : α → Bool)
    (hstep : ∀ acc d, q d = false → step acc d = acc) (l : List α) :
    ∀ acc, l.foldl step acc = (l.filter q).foldl step acc := by
  induction l with
  | nil => intro acc; rfl
  | cons d ds ih =>
    intro acc
    by_cases hq : q d = true
    · rw [List.filter_cons, if_pos hq, List.foldl_cons, List.foldl_cons]
      exact ih _
    · rw [Bool.not_eq_true] at hq
      rw [List.filter_cons, if_neg (by simp [hq]), List.foldl_cons, hstep acc d hq]
      exact ih _

theorem aggStep_peer (pkg : Package) (ty : ImplicitType) (exts : List String)
    (acc : List LazyEntry × List String) (dep : Package)
    (h : pkg.categorizeDependency dep.name = DepCategory.peerDependencies) :
    aggStep pkg ty exts acc dep = acc := by
  by_cases h1 : dep.isV2Addon = true
  · simp [aggStep, h1, h]
  · rw [Bool.not_eq_true] at h1
    simp [aggStep, h1]

/-- **C7.**  Peer exclusion: dependencies that the owning package
categorizes as peer dependencies contribute nothing — the two manifests
are unchanged when all peer-categorized dependencies are removed from the
dependency list. -/
theorem peer_exclusion (pkg : Package) (ty : ImplicitType) (exts : List String) :
    implicitManifests pkg ty exts =
      implicitManifests (pkg.withDependencies (pkg.dependencies.filter
        (fun d => !(pkg.categorizeDependency d.name == DepCategory.peerDependencies))))
        ty exts := by
  cases pkg with
  | mk n e a g m f deps =>
    have hstep : ∀ (acc : List LazyEntry × List String) (d : Package),
        (fun d => !((Package.mk n e a g m f deps).categorizeDependency d.name ==
          DepCategory.peerDependencies)) d = false →
        aggStep (Package.mk n e a g m f deps) ty exts acc d = acc := by
      intro acc d hd
      simp only [Bool.not_eq_false', beq_iff_eq] at hd
      exact aggStep_peer _ ty exts acc d hd
    show (sortByOrder deps).foldl (aggStep (Package.mk n e a g m f deps) ty exts)
        ([], []) = _
    rw [foldl_filter_skip _ _ hstep]
    rw [← sortByOrder_filter]
    rfl

/-! ## Engine boundary (C6) -/

theorem agg_snd (pkg : Package) (ty : ImplicitType) (exts : List String)
    (l : List Package) :
    ∀ acc, (l.foldl (aggStep pkg ty exts) acc).2 =
      acc.2 ++ (l.filter (fun d => d.isV2Addon &&
          !(pkg.categorizeDependency d.name == DepCategory.peerDependencies) &&
          !d.isEngine)).map
        (fun d => pathJoin d.name ("#embroider-" ++ typeName ty)) := by
  induction l with
  | nil => intro acc; simp
  | cons d ds ih =>
    intro acc
    rw [List.foldl_cons, ih, List.filter_cons]
    by_cases h1 : d.isV2Addon = true
    · by_cases h2 : (pkg.categorizeDependency d.name == DepCategory.peerDependencies) = true
      · have hstep : aggStep pkg ty exts acc d = acc := by simp [aggStep, h1, h2]
        rw [hstep]
        simp [h1, h2]
      · by_cases h3 : d.isEngine = true
        · have hsnd : (aggStep pkg ty exts acc d).2 = acc.2 := by
            simp only [aggStep, h1, Bool.not_true, Bool.false_eq_true, if_false, h2, h3]
            cases metaImplicit d ty <;> simp
          rw [hsnd]
          simp [h1, h2, h3]
        · have hsnd : (aggStep pkg ty exts acc d).2 =
              acc.2 ++ [pathJoin d.name ("#embroider-" ++ typeName ty)] := by
            simp only [aggStep, h1, Bool.not_true, Bool.false_eq_true, if_false, h2, h3]
            cases metaImplicit d ty <;> simp
          rw [hsnd]
          simp [h1, h2, h3]
    · rw [Bool.not_eq_true] at h1
      have hstep : aggStep pkg ty exts acc d = acc := by simp [aggStep, h1]
      rw [hstep]
      simp [h1]

theorem agg_fst_mem (pkg : Package) (ty : ImplicitType) (exts : List String)
    (l : List Package) :
    ∀ acc e, e ∈ (l.foldl (aggStep pkg ty exts) acc).1 →
      e ∈ acc.1 ∨ ∃ d ∈ l, d.isV2Addon = true ∧
        pkg.categorizeDependency d.name ≠ DepCategory.peerDependencies ∧
        ∃ mods, metaImplicit d ty = some mods ∧
          ∃ nm ∈ mods, e = lazyEntryFor d exts nm := by
  induction l with
  | nil => intro acc e he; exact Or.inl he
  | cons d ds ih =>
    intro acc e he
    rw [List.foldl_cons] at he
    rcases ih (aggStep pkg ty exts acc d) e he with h | ⟨d', hd', rest⟩
    · by_cases h1 : d.isV2Addon = true
      · by_cases h2 : (pkg.categorizeDependency d.name == DepCategory.peerDependencies) = true
        · have hstep : aggStep pkg ty exts acc d = acc := by simp [aggStep, h1, h2]
          rw [hstep] at h
          exact Or.inl h
        · cases hm : metaImplicit d ty with
          | none =>
            have hfst : (aggStep pkg ty exts acc d).1 = acc.1 := by
              simp only [aggStep, h1, Bool.not_true, Bool.false_eq_true, if_false, h2, hm]
              split <;> rfl
            rw [hfst] at h
            exact Or.inl h
          | some mods =>
            have hfst : (aggStep pkg ty exts acc d).1 =
                acc.1 ++ mods.map (lazyEntryFor d exts) := by
              simp only [aggStep, h1, Bool.not_true, Bool.false_eq_true, if_false, h2, hm]
              split <;> rfl
            rw [hfst] at h
            rcases List.mem_append.1 h with h | h
            · exact Or.inl h
            · rcases List.mem_map.1 h with ⟨nm, hnm, henm⟩
              refine Or.inr ⟨d, List.mem_cons_self d ds, h1, ?_, mods, hm, nm, hnm, henm.symm⟩
              intro hpeer
              exact h2 (by rw [hpeer]; rfl)
      · rw [Bool.not_eq_true] at h1
        have hstep : aggStep pkg ty exts acc d = acc := by simp [aggStep, h1]
        rw [hstep] at h
        exact Or.inl h
    · exact Or.inr ⟨d', List.mem_cons_of_mem d hd', rest⟩

/-- **C6, counterexample.**  An engine dependency gets *no* eager entry
referencing its own implicit-modules virtual file (the source pushes the
eager entry only for non-engine dependencies), so "contains exactly one
eager entry referencing that engine's own implicit-modules file" is
false. -/
theorem engine_boundary_cex :
    engineDep.isEngine = true ∧ engineDep ∈ ownerWithEngine.dependencies ∧
      ((implicitManifests ownerWithEngine .implicitModules []).2).count
        "eng/#embroider-implicit-modules" = 0 := by
  refine ⟨rfl, ?_, rfl⟩
  show engineDep ∈ [engineDep]
  simp

/-- **C6, amended.**  The eager manifest consists of exactly one entry
per non-engine, non-peer v2-addon dependency, in sorted order — an engine
dependency therefore contributes *no* eager entry — and every lazy entry
originates from a *direct* dependency's own declared implicit modules
(the aggregator never recurses, so nothing is sourced transitively
through an engine dependency). -/
theorem engine_boundary (pkg : Package) (ty : ImplicitType) (exts : List String) :
    ((implicitManifests pkg ty exts).2 =
      ((sortByOrder pkg.dependencies).filter (fun d => d.isV2Addon &&
          !(pkg.categorizeDependency d.name == DepCategory.peerDependencies) &&
          !d.isEngine)).map
        (fun d => pathJoin d.name ("#embroider-" ++ typeName ty))) ∧
    (∀ e ∈ (implicitManifests pkg ty exts).1, ∃ d ∈ pkg.dependencies,
      d.isV2Addon = true ∧
      pkg.categorizeDependency d.name ≠ DepCategory.peerDependencies ∧
      ∃ mods, metaImplicit d ty = some mods ∧
        ∃ nm ∈ mods, e = lazyEntryFor d exts nm) := by
  constructor
  · have h := agg_snd pkg ty exts (sortByOrder pkg.dependencies) ([], [])
    simpa [implicitManifests] using h
  · intro e he
    rcases agg_fst_mem pkg ty exts (sortByOrder pkg.dependencies) ([], []) e he
      with h | ⟨d, hd, rest⟩
    · simp at h
    · exact ⟨d, (sortByOrder_perm pkg.dependencies).subset hd, rest⟩

/-- **C6, amended, witness.** -/
theorem engine_boundary_witness :
    (implicitManifests ownerWithEngine .implicitModules []).2 =
      ((sortByOrder ownerWithEngine.dependencies).filter (fun d => d.isV2Addon &&
          !(ownerWithEngine.categorizeDependency d.name == DepCategory.peerDependencies) &&
          !d.isEngine)).map
        (fun d => pathJoin d.name ("#embroider-" ++ typeName ImplicitType.implicitModules)) :=
  (engine_boundary ownerWithEngine .implicitModules []).1

/-! ## Paired-component round-trip (C1): path decomposition lemmas -/

theorem splitOnChar_cons_sep (c : Char) (l : List Char) :
    splitOnChar c (c :: l) = [] :: splitOnChar c l := by
  simp only [splitOnChar]
  cases h : splitOnChar c l with
  | nil => exact absurd h (splitOnChar_ne_nil c l)
  | cons s ss => simp

theorem joinChar_concat (c : Char) (parts : List (List Char)) (x : List Char)
    (h : parts ≠ []) : joinChar c (parts ++ [x]) = joinChar c parts ++ c :: x := by
  induction parts with
  | nil => exact absurd rfl h
  | cons p ps ih =>
    cases ps with
    | nil => rfl
    | cons q qs =>
      have h1 : joinChar c ((p :: q :: qs) ++ [x]) =
          p ++ c :: joinChar c ((q :: qs) ++ [x]) := rfl
      rw [h1, ih (by simp)]
      simp [joinChar]

theorem goodSeg_spec (s : List Char) (h : goodSeg s = true) :
    s ≠ [] ∧ s ≠ ['.'] ∧ s ≠ ['.', '.'] ∧
      ∀ c ∈ s, c ≠ '/' ∧ isLineTerm c = false ∧ c.toNat < 128 := by
  simp only [goodSeg, Bool.and_eq_true, decide_eq_true_eq, List.all_eq_true] at h
  refine ⟨h.1, h.2.1, h.2.2.1, fun c hc => ?_⟩
  have := h.2.2.2 c hc
  simp only [Bool.and_eq_true, decide_eq_true_eq, Bool.not_eq_true'] at this
  exact this

theorem validAbs_spec (p : String) (h : validAbsPath p = true) :
    p.data = '/' :: joinChar '/' (segsOf p) ∧ segsOf p ≠ [] ∧
      ∀ s ∈ segsOf p, goodSeg s = true := by
  unfold validAbsPath at h
  split at h
  case h_2 => exact absurd h (by simp)
  case h_1 rest heq =>
    have hall : ∀ s ∈ splitOnChar '/' rest, goodSeg s = true := by
      rw [List.all_eq_true] at h
      exact h
    have hsegs : segsOf p = splitOnChar '/' rest := by
      unfold segsOf
      rw [heq, splitOnChar_cons_sep]
      rw [List.filter_cons]
      rw [if_neg (by simp)]
      apply List.filter_eq_self.mpr
      intro s hs
      have := (goodSeg_spec s (hall s hs)).1
      simpa using this
    refine ⟨?_, ?_, ?_⟩
    · rw [hsegs, joinChar_splitOnChar, heq]
    · rw [hsegs]; exact splitOnChar_ne_nil '/' rest
    · rw [hsegs]; exact hall

theorem validAbs_segs_facts (p : String) (h : validAbsPath p = true) :
    (∀ s ∈ segsOf p, s ≠ [] ∧ '/' ∉ s) ∧
      (∀ s ∈ segsOf p, ∀ c ∈ s, isLineTerm c = false ∧ c.toNat < 128) := by
  obtain ⟨-, -, hgood⟩ := validAbs_spec p h
  constructor
  · intro s hs
    obtain ⟨h1, -, -, hc⟩ := goodSeg_spec s (hgood s hs)
    refine ⟨h1, fun hmem => (hc '/' hmem).1 rfl⟩
  · intro s hs c hc
    obtain ⟨-, -, -, hcs⟩ := goodSeg_spec s (hgood s hs)
    exact ⟨(hcs c hc).2.1, (hcs c hc).2.2⟩

theorem validAbs_noLT (p : String) (h : validAbsPath p = true) :
    noLineTerm p.data = true := by
  obtain ⟨hdata, -, -⟩ := validAbs_spec p h
  have hfacts := (validAbs_segs_facts p h).2
  rw [noLineTerm_iff, hdata]
  intro x hx
  rcases List.mem_cons.1 hx with hx | hx
  · subst hx; decide
  · rcases mem_joinChar '/' _ x hx with he | ⟨r, hr, hxr⟩
    · subst he; decide
    · exact (hfacts r hr x hxr).1

/-- Joining the leading-empty-piece form gives back the path text. -/
theorem joinChar_abs (p : String) (h : validAbsPath p = true) :
    joinChar '/' ([] :: segsOf p) = p.data := by
  obtain ⟨hdata, hne, -⟩ := validAbs_spec p h
  rw [hdata]
  cases hs : segsOf p with
  | nil => exact absurd hs hne
  | cons s ss => rfl

/-- `splitOnChar` of the filename body `hbs.data ++ '/' :: e` for a
slash-free `e`. -/
theorem splitOnChar_body (hbs : String) (e : List Char)
    (hval : validAbsPath hbs = true) (hslash : '/' ∉ e) :
    splitOnChar '/' (hbs.data ++ '/' :: e) = ([] :: segsOf hbs) ++ [e] := by
  obtain ⟨hdata, hne, hgood⟩ := validAbs_spec hbs hval
  rw [splitOnChar_append, splitOnChar_not_mem '/' e hslash]
  congr 1
  rw [hdata, splitOnChar_cons_sep]
  congr 1
  apply splitOnChar_joinChar '/' _ hne
  intro s hs hmem
  exact ((validAbs_segs_facts hbs hval).1 s hs).2 hmem

theorem pairSplit_encode (hbs : String) (e : List Char)
    (hval : validAbsPath hbs = true) (hslash : '/' ∉ e) :
    pairSplit (hbs ++ "/" ++ String.mk e ++ pairComponentMarker) =
      some (hbs, String.mk e) := by
  obtain ⟨hdata, hne, hgood⟩ := validAbs_spec hbs hval
  have hD : (hbs ++ "/" ++ String.mk e ++ pairComponentMarker).data =
      (hbs.data ++ '/' :: e) ++ pairComponentMarker.data := by
    simp [String.data_append, List.append_assoc]
  have hsuffix : pairComponentMarker.data <:+
      (hbs ++ "/" ++ String.mk e ++ pairComponentMarker).data := by
    rw [hD]; exact List.suffix_append _ _
  have htake : ((hbs ++ "/" ++ String.mk e ++ pairComponentMarker).data.take
      ((hbs ++ "/" ++ String.mk e ++ pairComponentMarker).data.length - 25)) =
      hbs.data ++ '/' :: e := by
    rw [hD, List.length_append]
    have h25 : pairComponentMarker.data.length = 25 := rfl
    rw [h25]
    have harith : (hbs.data ++ '/' :: e).length + 25 - 25 =
        (hbs.data ++ '/' :: e).length := by omega
    rw [harith, List.take_left]
  have hparts := splitOnChar_body hbs e hval hslash
  have hjoin := joinChar_abs hbs hval
  unfold pairSplit
  rw [if_pos (decide_eq_true hsuffix), htake, hparts]
  have hlen2 : (([] :: segsOf hbs) ++ [e]).length ≥ 2 := by
    simp [List.length_append]
  rw [if_pos hlen2, List.dropLast_concat]
  have hnolt : noLineTerm (joinChar '/' ([] :: segsOf hbs)) = true := by
    rw [hjoin]
    exact validAbs_noLT hbs hval
  rw [if_pos hnolt, List.getLast?_concat]
  rw [hjoin]
  rfl

theorem dirname_encode (hbs : String) (e : List Char)
    (hval : validAbsPath hbs = true) (hslash : '/' ∉ e) :
    dirnameStr (hbs ++ "/" ++ String.mk e ++ pairComponentMarker) =
      String.mk (hbs.data ++ '/' :: e) := by
  obtain ⟨hdata, hne, hgood⟩ := validAbs_spec hbs hval
  have hmarker : pairComponentMarker.data = '/' :: "embroider-pair-component".data := rfl
  have hD : (hbs ++ "/" ++ String.mk e ++ pairComponentMarker).data =
      (hbs.data ++ '/' :: e) ++ '/' :: "embroider-pair-component".data := by
    rw [← hmarker]
    simp [String.data_append, List.append_assoc]
  have hsplitD : splitOnChar '/'
      (hbs ++ "/" ++ String.mk e ++ pairComponentMarker).data =
      (([] :: segsOf hbs) ++ [e]) ++ ["embroider-pair-component".data] := by
    rw [hD, splitOnChar_append, splitOnChar_body hbs e hval hslash,
      splitOnChar_not_mem '/' _ (by decide)]
  cases hs : segsOf hbs with
  | nil => exact absurd hs hne
  | cons s ss =>
    have hsplitD' : splitOnChar '/'
        (hbs ++ "/" ++ String.mk e ++ pairComponentMarker).data =
        [] :: s :: ((ss ++ [e]) ++ ["embroider-pair-component".data]) := by
      rw [hsplitD, hs]
      simp [List.append_assoc]
    have hgs : goodSeg s = true := hgood s (hs ▸ List.mem_cons_self s ss)
    have hsne : s ≠ [] := (goodSeg_spec s hgs).1
    have hdl : ([] :: s :: ((ss ++ [e]) ++ ["embroider-pair-component".data])).dropLast
        = [] :: s :: (ss ++ [e]) := by
      have hform : [] :: s :: ((ss ++ [e]) ++ ["embroider-pair-component".data]) =
          ([] :: s :: (ss ++ [e])) ++ ["embroider-pair-component".data] := by
        simp
      rw [hform, List.dropLast_concat]
    have hallfalse : (([] :: s :: (ss ++ [e])).all (· = [])) = false := by
      apply Bool.eq_false_iff.mpr
      intro hall
      rw [List.all_eq_true] at hall
      have := hall s (by simp)
      simp only [decide_eq_true_eq] at this
      exact hsne this
    have hjoin2 : joinChar '/' ([] :: s :: (ss ++ [e])) = hbs.data ++ '/' :: e := by
      have hform : ([] :: s :: (ss ++ [e])) = ([] :: segsOf hbs) ++ [e] := by
        rw [hs]; simp
      rw [hform, joinChar_concat '/' _ e (by simp), joinChar_abs hbs hval]
    have hmatch : dirnameStr (hbs ++ "/" ++ String.mk e ++ pairComponentMarker) =
        (if ((([] :: s :: ((ss ++ [e]) ++ ["embroider-pair-component".data])).dropLast).all
            (· = [])) = true then "/"
         else String.mk (joinChar '/'
            (([] :: s :: ((ss ++ [e]) ++ ["embroider-pair-component".data])).dropLast))) := by
      unfold dirnameStr
      rw [hsplitD']
    rw [hmatch, hdl, hallfalse]
    simp only [Bool.false_eq_true, if_false]
    rw [hjoin2]

theorem segsOf_body (hbs : String) (e : List Char)
    (hval : validAbsPath hbs = true) (hslash : '/' ∉ e) (hene : e ≠ []) :
    segsOf (String.mk (hbs.data ++ '/' :: e)) = segsOf hbs ++ [e] := by
  have h1 : (segsOf hbs).filter (· ≠ []) = segsOf hbs := by
    apply List.filter_eq_self.mpr
    intro s hs
    simpa using ((validAbs_segs_facts hbs hval).1 s hs).1
  have h2 : ([e] : List (List Char)).filter (· ≠ []) = [e] := by
    apply List.filter_eq_self.mpr
    intro s hs
    simp only [List.mem_singleton] at hs
    subst hs
    simpa using hene
  show (splitOnChar '/' (String.mk (hbs.data ++ '/' :: e)).data).filter (· ≠ []) =
    segsOf hbs ++ [e]
  rw [show (String.mk (hbs.data ++ '/' :: e)).data = hbs.data ++ '/' :: e from rfl,
    splitOnChar_body hbs e hval hslash, List.filter_append, List.filter_cons,
    if_neg (by simp), h1, h2]

theorem segsOf_hbs_j (hbs : String) (hval : validAbsPath hbs = true) :
    segsOf (hbs ++ "/j/") = segsOf hbs ++ [['j']] := by
  obtain ⟨hdata, hne, hgood⟩ := validAbs_spec hbs hval
  have hd : (hbs ++ "/j/").data = hbs.data ++ '/' :: ['j', '/'] := by
    simp [String.data_append]
  unfold segsOf
  rw [hd, splitOnChar_append]
  have hjl : splitOnChar '/' ['j', '/'] = [['j'], []] := rfl
  have hsplit : splitOnChar '/' hbs.data = [] :: segsOf hbs := by
    rw [hdata, splitOnChar_cons_sep]
    congr 1
    apply splitOnChar_joinChar '/' _ hne
    intro s hs hmem
    exact ((validAbs_segs_facts hbs hval).1 s hs).2 hmem
  rw [hjl, hsplit, List.filter_append, List.filter_cons, if_neg (by simp)]
  have h1 : (segsOf hbs).filter (· ≠ []) = segsOf hbs := by
    apply List.filter_eq_self.mpr
    intro s hs
    simpa using ((validAbs_segs_facts hbs hval).1 s hs).1
  rw [h1]
  rfl

theorem commonPrefixLen_le_left (f t : List (List Char)) :
    commonPrefixLen f t ≤ f.length := by
  induction f generalizing t with
  | nil => simp [commonPrefixLen]
  | cons a as ih =>
    cases t with
    | nil => simp [commonPrefixLen]
    | cons b bs =>
      unfold commonPrefixLen
      by_cases h : a = b
      · rw [if_pos h]
        simp only [List.length_cons]
        have := ih bs
        omega
      · rw [if_neg h]
        simp

theorem commonPrefixLen_take_eq (f t : List (List Char)) :
    f.take (commonPrefixLen f t) = t.take (commonPrefixLen f t) := by
  induction f generalizing t with
  | nil => simp [commonPrefixLen]
  | cons a as ih =>
    cases t with
    | nil => simp [commonPrefixLen]
    | cons b bs =>
      unfold commonPrefixLen
      by_cases h : a = b
      · rw [if_pos h]
        simp only [List.take_succ_cons]
        rw [h, ih bs]
      · rw [if_neg h]
        simp

theorem commonPrefixLen_full (f t : List (List Char))
    (h : commonPrefixLen f t = f.length) : f <+: t := by
  induction f generalizing t with
  | nil => exact List.nil_prefix
  | cons a as ih =>
    cases t with
    | nil => simp [commonPrefixLen] at h
    | cons b bs =>
      unfold commonPrefixLen at h
      by_cases hab : a = b
      · rw [if_pos hab] at h
        simp only [List.length_cons] at h
        have := ih bs (by omega)
        subst hab
        exact List.prefix_cons_inj a |>.mpr this
      · rw [if_neg hab] at h
        simp at h

theorem commonPrefixLen_concat_le (a : List (List Char)) (x : List Char)
    (b : List (List Char)) (h : commonPrefixLen (a ++ [x]) b ≤ a.length) :
    commonPrefixLen (a ++ [x]) b = commonPrefixLen a b := by
  induction a generalizing b with
  | nil =>
    simp only [List.length_nil, Nat.le_zero] at h
    rw [h]
    simp [commonPrefixLen]
  | cons p ps ih =>
    cases b with
    | nil => simp [commonPrefixLen]
    | cons q qs =>
      by_cases hpq : p = q
      · have hcons : commonPrefixLen ((p :: ps) ++ [x]) (q :: qs) =
            commonPrefixLen (ps ++ [x]) qs + 1 := by
          simp [commonPrefixLen, hpq]
        rw [hcons] at h ⊢
        simp only [List.length_cons] at h
        rw [ih qs (by omega)]
        simp [commonPrefixLen, hpq]
      · simp [commonPrefixLen, hpq]

theorem normAbsSegs_normal (l : List (List Char))
    (h : ∀ s ∈ l, s ≠ [] ∧ s ≠ ['.'] ∧ s ≠ ['.', '.']) :
    ∀ acc, normAbsSegs acc l = acc ++ l := by
  induction l with
  | nil => intro acc; simp [normAbsSegs]
  | cons s rest ih =>
    intro acc
    obtain ⟨h1, h2, h3⟩ := h s (by simp)
    unfold normAbsSegs
    rw [if_neg (by simp [h1, h2]), if_neg h3,
      ih (fun r hr => h r (List.mem_cons_of_mem s hr))]
    simp

theorem normAbsSegs_ups (k : Nat) (rest : List (List Char)) :
    ∀ acc, normAbsSegs acc (List.replicate k ['.', '.'] ++ rest) =
      normAbsSegs (acc.take (acc.length - k)) rest := by
  induction k with
  | zero =>
    intro acc
    simp [List.take_length]
  | succ k ih =>
    intro acc
    have hrep : List.replicate (k + 1) ['.', '.'] ++ rest =
        ['.', '.'] :: (List.replicate k ['.', '.'] ++ rest) := rfl
    have hstep : normAbsSegs acc (['.', '.'] :: (List.replicate k ['.', '.'] ++ rest)) =
        normAbsSegs acc.dropLast (List.replicate k ['.', '.'] ++ rest) := by
      simp [normAbsSegs]
    have hlist : acc.dropLast.take (acc.dropLast.length - k) =
        acc.take (acc.length - (k + 1)) := by
      rw [List.length_dropLast, List.dropLast_eq_take, List.take_take]
      have hmin : min (acc.length - 1 - k) (acc.length - 1) = acc.length - (k + 1) := by
        omega
      rw [hmin]
    rw [hrep, hstep, ih acc.dropLast, hlist]

theorem takeWhile_dd (k : Nat) (rest : List (List Char))
    (h : ∀ r, rest.head? = some r → r ≠ ['.', '.']) :
    ((List.replicate k ['.', '.'] ++ rest).takeWhile
      (fun seg => seg == ['.', '.'])).length = k := by
  induction k with
  | zero =>
    cases rest with
    | nil => rfl
    | cons r rs =>
      have hr : (r == ['.', '.']) = false := beq_eq_false_iff_ne.mpr (h r rfl)
      simp [List.takeWhile, hr]
  | succ k ih =>
    have hrep : List.replicate (k + 1) ['.', '.'] ++ rest =
        ['.', '.'] :: (List.replicate k ['.', '.'] ++ rest) := rfl
    have hdd : ((['.', '.'] : List Char) == ['.', '.']) = true := rfl
    rw [hrep]
    simp only [List.takeWhile, hdd, List.length_cons, ih]

theorem commonPrefixLen_le_right (f t : List (List Char)) :
    commonPrefixLen f t ≤ t.length := by
  induction f generalizing t with
  | nil => simp [commonPrefixLen]
  | cons a as ih =>
    cases t with
    | nil => simp [commonPrefixLen]
    | cons b bs =>
      unfold commonPrefixLen
      by_cases h : a = b
      · rw [if_pos h]
        simp only [List.length_cons]
        have := ih bs
        omega
      · rw [if_neg h]
        simp

theorem normAbsSegs_append_normal (l₁ l₂ : List (List Char))
    (h : ∀ s ∈ l₁, s ≠ [] ∧ s ≠ ['.'] ∧ s ≠ ['.', '.']) :
    ∀ acc, normAbsSegs acc (l₁ ++ l₂) = normAbsSegs (acc ++ l₁) l₂ := by
  induction l₁ with
  | nil => intro acc; simp
  | cons s rest ih =>
    intro acc
    obtain ⟨h1, h2, h3⟩ := h s (by simp)
    have hstep : normAbsSegs acc ((s :: rest) ++ l₂) =
        normAbsSegs (acc ++ [s]) (rest ++ l₂) := by
      have hcons : (s :: rest) ++ l₂ = s :: (rest ++ l₂) := rfl
      rw [hcons]
      simp only [normAbsSegs]
      rw [if_neg (by simp [h1, h2]), if_neg h3]
    rw [hstep, ih (fun r hr => h r (List.mem_cons_of_mem s hr))]
    simp

theorem joinChar_cons_ne (c : Char) (p : List Char) (ps : List (List Char))
    (h : ps ≠ []) : joinChar c (p :: ps) = p ++ c :: joinChar c ps := by
  cases ps with
  | nil => exact absurd rfl h
  | cons q qs => rfl

theorem dropLast_take_eq (T : List (List Char)) (C : Nat)
    (h : C ≤ T.length - 1) : T.dropLast.take C = T.take C := by
  rw [List.dropLast_eq_take, List.take_take]
  congr 1
  omega

theorem pairC_le (hbs j : String)
    (hpre : (segsOf hbs ++ [['j']]).isPrefixOf (segsOf j) = false) :
    commonPrefixLen (segsOf hbs ++ [['j']]) ((segsOf j).dropLast) ≤
      (segsOf hbs).length := by
  have hnotpre : ¬ ((segsOf hbs ++ [['j']]) <+: segsOf j) := by
    intro hp
    rw [← List.isPrefixOf_iff_prefix] at hp
    rw [hp] at hpre
    exact Bool.noConfusion hpre
  by_contra hgt
  push_neg at hgt
  have h1 := commonPrefixLen_le_left (segsOf hbs ++ [['j']]) ((segsOf j).dropLast)
  have h2 : (segsOf hbs ++ [['j']]).length = (segsOf hbs).length + 1 := by simp
  have hCeq : commonPrefixLen (segsOf hbs ++ [['j']]) ((segsOf j).dropLast) =
      (segsOf hbs ++ [['j']]).length := by omega
  have hfull := commonPrefixLen_full _ _ hCeq
  exact hnotpre (hfull.trans (List.dropLast_prefix (segsOf j)))

theorem explicitRelative_j_eq (hbs j : String) (hvh : validAbsPath hbs = true)
    (hpre : (segsOf hbs ++ [['j']]).isPrefixOf (segsOf j) = false) :
    explicitRelative (hbs ++ "/j/") j =
      String.mk (joinChar '/' (List.replicate
          ((segsOf hbs).length + 1 -
            commonPrefixLen (segsOf hbs ++ [['j']]) ((segsOf j).dropLast)) ['.', '.'] ++
        (((segsOf j).dropLast).drop
            (commonPrefixLen (segsOf hbs ++ [['j']]) ((segsOf j).dropLast)) ++
          [((segsOf j).getLast?).getD []]))) := by
  have hCle := pairC_le hbs j hpre
  simp only [explicitRelative]
  rw [segsOf_hbs_j hbs hvh]
  have hflen : (segsOf hbs ++ [['j']]).length = (segsOf hbs).length + 1 := by simp
  rw [if_neg (by omega), hflen]

/-- The complete encode-side analysis for a paired component with a
companion JS module. -/
theorem pair_js_core (hbs j : String) (hvh : validAbsPath hbs = true)
    (hvj : validAbsPath j = true)
    (hpre : (segsOf hbs ++ [['j']]).isPrefixOf (segsOf j) = false) :
    virtualPairComponent hbs (some j) =
      hbs ++ "/" ++ String.mk (encList (explicitRelative (hbs ++ "/j/") j).data) ++
        pairComponentMarker ∧
    '/' ∉ encList (explicitRelative (hbs ++ "/j/") j).data ∧
    encList (explicitRelative (hbs ++ "/j/") j).data ≠ [] ∧
    decodeURIComponent (String.mk (encList (explicitRelative (hbs ++ "/j/") j).data)) =
      some (explicitRelative (hbs ++ "/j/") j) ∧
    explicitRelative (hbs ++ "/j/") j ≠ "" ∧
    resolvePath
      (String.mk (hbs.data ++ '/' :: encList (explicitRelative (hbs ++ "/j/") j).data))
      (explicitRelative (hbs ++ "/j/") j) = j ∧
    leadingDotDots (explicitRelative (hbs ++ "/j/") j) =
      (segsOf hbs).length + 1 - commonPrefixLen (segsOf hbs) ((segsOf j).dropLast) := by
  obtain ⟨hdataH, hneH, hgoodH⟩ := validAbs_spec hbs hvh
  obtain ⟨hdataT, hneT, hgoodT⟩ := validAbs_spec j hvj
  have hCle := pairC_le hbs j hpre
  have hrel := explicitRelative_j_eq hbs j hvh hpre
  set T := segsOf j with hT
  set H := segsOf hbs with hH
  set C := commonPrefixLen (H ++ [['j']]) (T.dropLast) with hC
  set B := (T.getLast?).getD [] with hBdef
  set UPS := H.length + 1 - C with hUPS
  set REST := T.dropLast.drop C ++ [B] with hREST
  set PARTS := List.replicate UPS ['.', '.'] ++ REST with hPARTS
  have hUPSpos : 1 ≤ UPS := by
    rw [hUPS]
    omega
  have hBeq : B = T.getLast hneT := by
    rw [hBdef, List.getLast?_eq_getLast T hneT]
    rfl
  have hBmem : B ∈ T := by rw [hBeq]; exact List.getLast_mem hneT
  have hTDsub : ∀ p ∈ T.dropLast.drop C, p ∈ T := by
    intro p hp
    exact (List.dropLast_prefix T).subset (List.drop_subset _ _ hp)
  have hRESTgood : ∀ p ∈ REST, goodSeg p = true := by
    intro p hp
    rw [hREST] at hp
    rcases List.mem_append.1 hp with h | h
    · exact hgoodT p (hTDsub p h)
    · simp only [List.mem_singleton] at h
      exact h ▸ hgoodT B hBmem
  have hRESTne : REST ≠ [] := by rw [hREST]; simp
  have hPARTSne : PARTS ≠ [] := by
    rw [hPARTS]
    intro hcon
    rw [List.append_eq_nil] at hcon
    exact hRESTne hcon.2
  have hPiecesNe : ∀ p ∈ PARTS, p ≠ [] := by
    intro p hp
    rw [hPARTS] at hp
    rcases List.mem_append.1 hp with h | h
    · rw [List.eq_of_mem_replicate h]
      simp
    · exact (goodSeg_spec p (hRESTgood p h)).1
  have hPiecesSlash : ∀ p ∈ PARTS, '/' ∉ p := by
    intro p hp
    rw [hPARTS] at hp
    rcases List.mem_append.1 hp with h | h
    · rw [List.eq_of_mem_replicate h]
      decide
    · intro hc
      exact ((goodSeg_spec p (hRESTgood p h)).2.2.2 '/' hc).1 rfl
  have hrelData : (explicitRelative (hbs ++ "/j/") j).data = joinChar '/' PARTS := by
    rw [hrel]
  have hPARTS_cons : PARTS =
      ['.', '.'] :: (List.replicate (UPS - 1) ['.', '.'] ++ REST) := by
    obtain ⟨u, hu⟩ : ∃ u, UPS = u + 1 := ⟨UPS - 1, by omega⟩
    rw [hPARTS, hu]
    simp [List.replicate_succ]
  have hJoinShape : joinChar '/' PARTS =
      ['.', '.'] ++ '/' :: joinChar '/' (List.replicate (UPS - 1) ['.', '.'] ++ REST) := by
    rw [hPARTS_cons]
    apply joinChar_cons_ne
    intro hcon
    rw [List.append_eq_nil] at hcon
    exact hRESTne hcon.2
  have hencShape : encList (joinChar '/' PARTS) =
      '.' :: '.' :: '%' :: '2' :: 'F' ::
        encList (joinChar '/' (List.replicate (UPS - 1) ['.', '.'] ++ REST)) := by
    rw [hJoinShape, encList_append]
    rfl
  have hene : encList (explicitRelative (hbs ++ "/j/") j).data ≠ [] := by
    rw [hrelData, hencShape]
    simp
  have hfn : virtualPairComponent hbs (some j) =
      hbs ++ "/" ++ String.mk (encList (explicitRelative (hbs ++ "/j/") j).data) ++
        pairComponentMarker := by
    simp only [virtualPairComponent, encodeURIComponent]
  have hascii : ∀ c ∈ (explicitRelative (hbs ++ "/j/") j).data, c.toNat < 128 := by
    rw [hrelData]
    intro c hc
    rcases mem_joinChar '/' _ c hc with he | ⟨p, hp, hcp⟩
    · subst he; decide
    · rw [hPARTS] at hp
      rcases List.mem_append.1 hp with h | h
      · rw [List.eq_of_mem_replicate h] at hcp
        rcases List.mem_cons.1 hcp with hcp | hcp
        · subst hcp; decide
        · simp only [List.mem_singleton] at hcp
          subst hcp; decide
      · exact ((goodSeg_spec p (hRESTgood p h)).2.2.2 c hcp).2.2
  have hdec : decodeURIComponent
      (String.mk (encList (explicitRelative (hbs ++ "/j/") j).data)) =
      some (explicitRelative (hbs ++ "/j/") j) := by
    unfold decodeURIComponent
    rw [show (String.mk (encList (explicitRelative (hbs ++ "/j/") j).data)).data =
        encList (explicitRelative (hbs ++ "/j/") j).data from rfl]
    rw [dec_enc_ascii _ hascii, Option.map_some']
  have hrelne : explicitRelative (hbs ++ "/j/") j ≠ "" := by
    intro hcon
    have hd := congrArg String.data hcon
    rw [hrelData] at hd
    exact joinChar_eq_nil_iff '/' PARTS hPARTSne hPiecesNe hd
  refine ⟨hfn, ?_, hene, hdec, hrelne, ?_, ?_⟩
  · rw [hrelData]
    exact encList_no_slash _
  · -- resolution back to `j`
    have hEnorm : encList (explicitRelative (hbs ++ "/j/") j).data ≠ [] ∧
        encList (explicitRelative (hbs ++ "/j/") j).data ≠ ['.'] ∧
        encList (explicitRelative (hbs ++ "/j/") j).data ≠ ['.', '.'] := by
      rw [hrelData, hencShape]
      refine ⟨by simp, by simp, ?_⟩
      intro hcon
      have := congrArg List.length hcon
      simp at this
    set e := encList (explicitRelative (hbs ++ "/j/") j).data with hE
    have hHnormal : ∀ s ∈ H ++ [e], s ≠ [] ∧ s ≠ ['.'] ∧ s ≠ ['.', '.'] := by
      intro s hs
      rcases List.mem_append.1 hs with h | h
      · obtain ⟨a, b, c', -⟩ := goodSeg_spec s (hgoodH s h)
        exact ⟨a, b, c'⟩
      · simp only [List.mem_singleton] at h
        subst h
        exact hEnorm
    have hRESTnormal : ∀ s ∈ REST, s ≠ [] ∧ s ≠ ['.'] ∧ s ≠ ['.', '.'] := by
      intro s hs
      obtain ⟨a, b, c', -⟩ := goodSeg_spec s (hRESTgood s hs)
      exact ⟨a, b, c'⟩
    have hEslash : '/' ∉ e := by
      rw [hE, hrelData]
      exact encList_no_slash _
    have hsegsDir : segsOf (String.mk (hbs.data ++ '/' :: e)) = H ++ [e] :=
      segsOf_body hbs e hvh hEslash hEnorm.1
    have hsegsRel : segsOf (explicitRelative (hbs ++ "/j/") j) = PARTS := by
      unfold segsOf
      rw [hrelData, splitOnChar_joinChar '/' PARTS hPARTSne hPiecesSlash]
      apply List.filter_eq_self.mpr
      intro p hp
      simpa using hPiecesNe p hp
    have hhead : (explicitRelative (hbs ++ "/j/") j).data.head? ≠ some '/' := by
      rw [hrelData, hJoinShape]
      intro hcon
      simp at hcon
    unfold resolvePath
    rw [if_neg hhead, hsegsDir, hsegsRel, hPARTS]
    rw [normAbsSegs_append_normal (H ++ [e]) _ hHnormal []]
    rw [List.nil_append]
    rw [normAbsSegs_ups UPS REST (H ++ [e])]
    have hlenHe : (H ++ [e]).length = H.length + 1 := by simp
    have htakeC : (H ++ [e]).take ((H ++ [e]).length - UPS) = T.dropLast.take C := by
      rw [hlenHe]
      have harith : H.length + 1 - UPS = C := by
        rw [hUPS]
        omega
      rw [harith]
      rw [List.take_append_of_le_length hCle]
      have h2 : (H ++ [['j']]).take C = H.take C :=
        List.take_append_of_le_length hCle
      rw [← h2, hC, commonPrefixLen_take_eq]
    rw [htakeC, normAbsSegs_normal REST hRESTnormal]
    rw [hREST]
    have hfinal : T.dropLast.take C ++ (T.dropLast.drop C ++ [B]) = T := by
      rw [← List.append_assoc, List.take_append_drop, hBeq,
        List.dropLast_append_getLast hneT]
    rw [hfinal]
    have hjdata : j.data = '/' :: joinChar '/' T := hdataT
    rw [← hjdata]
  · -- the number of leading `..` segments
    unfold leadingDotDots
    have hsegsRel : segsOf (explicitRelative (hbs ++ "/j/") j) = PARTS := by
      unfold segsOf
      rw [hrelData, splitOnChar_joinChar '/' PARTS hPARTSne hPiecesSlash]
      apply List.filter_eq_self.mpr
      intro p hp
      simpa using hPiecesNe p hp
    rw [hsegsRel, hPARTS, takeWhile_dd]
    · rw [hUPS]
      congr 1
      rw [hC]
      exact commonPrefixLen_concat_le H ['j'] T.dropLast hCle
    · intro r hr
      rw [hREST] at hr
      cases hdrop : T.dropLast.drop C with
      | nil =>
        rw [hdrop] at hr
        simp only [List.nil_append, List.head?_cons, Option.some_inj] at hr
        subst hr
        exact (goodSeg_spec B (hgoodT B hBmem)).2.2.1
      | cons r0 rs =>
        rw [hdrop] at hr
        simp only [List.cons_append, List.head?_cons, Option.some_inj] at hr
        have hr0T : r0 ∈ T := by
          apply hTDsub r0
          rw [hdrop]
          exact List.mem_cons_self r0 rs
        rw [← hr]
        exact (goodSeg_spec r0 (hgoodT r0 hr0T)).2.2.1

/-- **C1.**  Paired-component round-trip: decoding the filename produced
by `virtualPairComponent` recovers exactly the `relativeJSModule` that
was computed at encode time from the synthetic `hbsModule ++ "/j/"`
location (`null` iff no JS module was given); resolving that relative
path against the directory of the virtual filename itself lands back on
`jsModule`; and the number of leading `..` segments equals the virtual
file's own directory depth below the deepest directory shared with the
JS module — which is what the extra `/j/` segment arranges.  Validity:
both module paths are well-formed absolute ASCII paths, and the JS
module does not live underneath `hbsModule ++ "/j"` (impossible anyway,
since `hbsModule` is a file). -/
theorem paired_component_roundtrip (hbsModule : String) (jsModule : Option String)
    (hvh : validAbsPath hbsModule = true)
    (hvj : ∀ j, jsModule = some j → validAbsPath j = true ∧
      (segsOf hbsModule ++ [['j']]).isPrefixOf (segsOf j) = false) :
    decodeVirtualPairComponent (virtualPairComponent hbsModule jsModule) =
      .ok (some
        { relativeHBSModule := explicitRelative
            (dirnameStr (virtualPairComponent hbsModule jsModule)) hbsModule
          relativeJSModule :=
            jsModule.map (fun j => explicitRelative (hbsModule ++ "/j/") j)
          debugName := stripTemplateExt (basenameStr (explicitRelative
            (dirnameStr (virtualPairComponent hbsModule jsModule)) hbsModule)) }) ∧
    (jsModule.map (fun j => explicitRelative (hbsModule ++ "/j/") j) = none ↔
      jsModule = none) ∧
    (∀ j, jsModule = some j →
      resolvePath (dirnameStr (virtualPairComponent hbsModule jsModule))
        (explicitRelative (hbsModule ++ "/j/") j) = j ∧
      leadingDotDots (explicitRelative (hbsModule ++ "/j/") j) =
        (segsOf (dirnameStr (virtualPairComponent hbsModule jsModule))).length -
          commonPrefixLen (segsOf hbsModule) ((segsOf j).dropLast)) := by
  cases jsModule with
  | none =>
    have hfn : virtualPairComponent hbsModule none =
        hbsModule ++ "/" ++ String.mk [] ++ pairComponentMarker := rfl
    have hps := pairSplit_encode hbsModule [] hvh (by simp)
    have hdec0 : decodeURIComponent (String.mk []) = some "" := rfl
    refine ⟨?_, by simp, ?_⟩
    · rw [hfn]
      simp only [decodeVirtualPairComponent, hps, hdec0, Option.map_none]
      rfl
    · intro j hj
      exact absurd hj (by simp)
  | some j =>
    obtain ⟨hvj1, hvj2⟩ := hvj j rfl
    obtain ⟨hfn, hslash, hene, hdec, hrelne, hresolve, hld⟩ :=
      pair_js_core hbsModule j hvh hvj1 hvj2
    set e := encList (explicitRelative (hbsModule ++ "/j/") j).data with hE
    have hps := pairSplit_encode hbsModule e hvh hslash
    have hdir := dirname_encode hbsModule e hvh hslash
    refine ⟨?_, by simp, ?_⟩
    · rw [hfn]
      simp only [decodeVirtualPairComponent, hps, hdec, if_neg hrelne]
      rfl
    · intro j' hj'
      have hjj : j' = j := by
        injection hj' with h
        exact h.symm
      subst hjj
      constructor
      · rw [hfn, hdir]
        exact hresolve
      · rw [hfn, hdir, segsOf_body hbsModule e hvh hslash hene]
        rw [List.length_append]
        exact hld

/-- **C1, witness.** -/
theorem paired_component_roundtrip_witness :
    decodeVirtualPairComponent (virtualPairComponent "/pkg/components/foo.hbs"
        (some "/pkg/components/foo.js")) =
      .ok (some { relativeHBSModule := "../../foo.hbs",
                  relativeJSModule := some "../../foo.js",
                  debugName := "foo" }) := by
  have h := (paired_component_roundtrip "/pkg/components/foo.hbs"
    (some "/pkg/components/foo.js") (by decide) (by
      intro j hj
      have hjj : j = "/pkg/components/foo.js" := by
        injection hj with h
        exact h.symm
      subst hjj
      exact ⟨by decide, by decide⟩)).1
  rw [h]
  rfl

end VirtualContent
